import Mathlib

/-!
Verification development for the chat-transcript refocuser
(`packages/core/src/refocus/index.ts`).

The development is a shallow embedding of the module: each TypeScript
function is translated into an executable Lean definition over an explicit
model of the chat-completions message union, of JSON values, and of the
filesystem (a `World` record carrying the disk as a partial map together
with the ambient date and working directory, which the original code reads
through `fs.readFileSync`, `new Date()` and `process.cwd()`).

Modelling conventions, stated once here:
- JavaScript strings are Lean `String`s (lengths count unicode scalar
  values rather than UTF-16 code units; none of the verified properties
  depend on astral-plane characters).
- A missing or `undefined` field of string type on the wire is modelled by
  the empty string whenever the code only ever consumes it through
  JavaScript truthiness (so `toolCall.id` and `function.name` are plain
  `String`s, where `""` plays the role of both the empty and the absent
  value, exactly as `!toolCall.id` does in the source).
- `JSON.parse` / `JSON.stringify` are modelled by an executable
  recursive-descent reader `parseJson` and printer `jsonStringify` over an
  inductive `Json` type.  JSON numbers are modelled as integers: the
  reader rejects fraction and exponent parts (none of the verified
  properties involve non-integral numbers).
- Assistant `content` is `Option String` (`none` models `null`/absent);
  the `tool_calls` property is a three-state field because the code
  distinguishes a missing property (`'tool_calls' in message` is false)
  from a present-but-nullish one.
-/

namespace Refocus

/-! ## JSON values, printer and reader -/

/-- Model of a decoded JSON value (`JSON.parse` result).  Numbers are
modelled as integers; see the header comment. -/
inductive Json where
  | null
  | bool (b : Bool)
  | num (n : Int)
  | str (s : String)
  | arr (elems : List Json)
  | obj (fields : List (String × Json))

/-- JavaScript truthiness of a JSON value (`if (v)`): `null`, `false`,
`0` and `""` are falsy; arrays and objects are always truthy. -/
def Json.truthy : Json → Bool
  | .null => false
  | .bool b => b
  | .num n => n != 0
  | .str s => s != ""
  | .arr _ => true
  | .obj _ => true

/-- Property access `v.key` on a decoded JSON value: defined on objects,
`undefined` (modelled as `none`) otherwise. -/
def Json.getField : Json → String → Option Json
  | .obj fields, key => (fields.find? (fun f => f.1 == key)).map (fun f => f.2)
  | _, _ => none

/-- Object-property update `obj[key] = v` (and the spread
`{...parsed, key: v}`): an existing key keeps its position and gets the
new value, a new key is appended. -/
def setFieldList (fields : List (String × Json)) (key : String) (v : Json) :
    List (String × Json) :=
  if fields.any (fun f => f.1 == key) then
    fields.map (fun f => if f.1 == key then (f.1, v) else f)
  else
    fields ++ [(key, v)]

/-- Update of a field on an object value; non-objects are returned
unchanged (the code only uses this on a decoded object). -/
def Json.setField : Json → String → Json → Json
  | .obj fields, key, v => .obj (setFieldList fields key v)
  | j, _, _ => j

/-- Object contents built from a raw key/value pair list by successive
property assignments, giving JavaScript duplicate-key semantics (first
position, last value). -/
def dedupFields (ps : List (String × Json)) : List (String × Json) :=
  ps.foldl (fun acc p => setFieldList acc p.1 p.2) []

/-- The left-brace character, kept out of character-literal syntax. -/
def lbrace : Char := Char.ofNat 123

/-- The right-brace character. -/
def rbrace : Char := Char.ofNat 125

/-- String form of the left brace. -/
def lbraceS : String := String.mk [lbrace]

/-- String form of the right brace. -/
def rbraceS : String := String.mk [rbrace]

/-- Escape of a single character inside a JSON string literal, following
`JSON.stringify`. -/
def escapeChar (c : Char) : String :=
  if c = '"' then "\\\""
  else if c = '\\' then "\\\\"
  else if c = '\n' then "\\n"
  else if c = '\t' then "\\t"
  else if c = '\r' then "\\r"
  else if c = Char.ofNat 8 then "\\b"
  else if c = Char.ofNat 12 then "\\f"
  else if c.toNat < 32 then
    "\\u00" ++ String.mk [Nat.digitChar (c.toNat / 16), Nat.digitChar (c.toNat % 16)]
  else String.mk [c]

/-- JSON string literal for `s`, with surrounding quotes. -/
def escapeString (s : String) : String :=
  "\"" ++ String.join (s.data.map escapeChar) ++ "\""

mutual

/-- Compact printer modelling `JSON.stringify(v)` (no indent argument). -/
def jsonStringify : Json → String
  | .null => "null"
  | .bool true => "true"
  | .bool false => "false"
  | .num n => toString n
  | .str s => escapeString s
  | .arr es => "[" ++ stringifyArr es ++ "]"
  | .obj fs => lbraceS ++ stringifyObj fs ++ rbraceS

/-- Comma-separated rendering of array elements. -/
def stringifyArr : List Json → String
  | [] => ""
  | [e] => jsonStringify e
  | e :: es => jsonStringify e ++ "," ++ stringifyArr es

/-- Comma-separated rendering of object fields. -/
def stringifyObj : List (String × Json) → String
  | [] => ""
  | [(k, v)] => escapeString k ++ ":" ++ jsonStringify v
  | (k, v) :: fs => escapeString k ++ ":" ++ jsonStringify v ++ "," ++ stringifyObj fs

end

mutual

/-- Pretty printer modelling `JSON.stringify(v, null, 2)`; `ind` is the
current indentation. -/
def prettyJson (ind : String) : Json → String
  | .arr [] => "[]"
  | .obj [] => lbraceS ++ rbraceS
  | .arr es => "[\n" ++ prettyArr (ind ++ "  ") es ++ "\n" ++ ind ++ "]"
  | .obj fs => lbraceS ++ "\n" ++ prettyObj (ind ++ "  ") fs ++ "\n" ++ ind ++ rbraceS
  | .null => "null"
  | .bool true => "true"
  | .bool false => "false"
  | .num n => toString n
  | .str s => escapeString s

/-- Indented, comma-and-newline separated array elements. -/
def prettyArr (ind : String) : List Json → String
  | [] => ""
  | [e] => ind ++ prettyJson ind e
  | e :: es => ind ++ prettyJson ind e ++ ",\n" ++ prettyArr ind es

/-- Indented, comma-and-newline separated object fields. -/
def prettyObj (ind : String) : List (String × Json) → String
  | [] => ""
  | [(k, v)] => ind ++ escapeString k ++ ": " ++ prettyJson ind v
  | (k, v) :: fs => ind ++ escapeString k ++ ": " ++ prettyJson ind v ++ ",\n" ++ prettyObj ind fs

end

/-- Whitespace skipping of the JSON reader. -/
def skipWs : List Char → List Char
  | c :: cs => if c = ' ' ∨ c = '\t' ∨ c = '\n' ∨ c = '\r' then skipWs cs else c :: cs
  | [] => []

/-- Value of a hexadecimal digit, if any. -/
def hexVal (c : Char) : Option Nat :=
  if '0' ≤ c ∧ c ≤ '9' then some (c.toNat - '0'.toNat)
  else if 'a' ≤ c ∧ c ≤ 'f' then some (c.toNat - 'a'.toNat + 10)
  else if 'A' ≤ c ∧ c ≤ 'F' then some (c.toNat - 'A'.toNat + 10)
  else none

/-- Body of a JSON string literal (after the opening quote): returns the
decoded characters and the input following the closing quote.  Invalid
escapes and raw control characters make the whole parse fail, matching a
`JSON.parse` exception.  The fuel argument (any bound on the input
length) keeps the recursion structural. -/
def parseStringBody : Nat → List Char → Option (List Char × List Char)
  | 0, _ => none
  | _, [] => none
  | fuel + 1, c :: cs =>
    if c = '"' then some ([], cs)
    else if c = '\\' then
      match cs with
      | [] => none
      | e :: cs' =>
        if e = 'u' then
          match cs' with
          | h1 :: h2 :: h3 :: h4 :: cs'' =>
            match hexVal h1, hexVal h2, hexVal h3, hexVal h4 with
            | some a, some b, some c2, some d =>
              (parseStringBody fuel cs'').map
                (fun r => (Char.ofNat (((a * 16 + b) * 16 + c2) * 16 + d) :: r.1, r.2))
            | _, _, _, _ => none
          | _ => none
        else
          let dec : Option Char :=
            if e = '"' then some '"'
            else if e = '\\' then some '\\'
            else if e = '/' then some '/'
            else if e = 'n' then some '\n'
            else if e = 't' then some '\t'
            else if e = 'r' then some '\r'
            else if e = 'b' then some (Char.ofNat 8)
            else if e = 'f' then some (Char.ofNat 12)
            else none
          match dec with
          | some ch => (parseStringBody fuel cs').map (fun r => (ch :: r.1, r.2))
          | none => none
    else if c.toNat < 32 then none
    else (parseStringBody fuel cs).map (fun r => (c :: r.1, r.2))

/-- Digit run at the front of the input. -/
def takeDigits (cs : List Char) : List Char × List Char :=
  (cs.takeWhile Char.isDigit, cs.dropWhile Char.isDigit)

/-- Integer JSON number at the front of the input.  Fraction and exponent
parts are rejected (model restriction, see the header); a leading zero
followed by more digits is rejected as in strict JSON. -/
def parseNumber (cs : List Char) : Option (Int × List Char) :=
  let (neg, cs') := match cs with
    | '-' :: rest => (true, rest)
    | _ => (false, cs)
  let (ds, rest) := takeDigits cs'
  if ds = [] then none
  else if ds.length > 1 ∧ ds.headI = '0' then none
  else
    match rest with
    | '.' :: _ => none
    | 'e' :: _ => none
    | 'E' :: _ => none
    | _ =>
      let n : Nat := ds.foldl (fun acc d => acc * 10 + (d.toNat - '0'.toNat)) 0
      some (if neg then -(n : Int) else (n : Int), rest)

mutual

/-- Recursive-descent JSON value reader with fuel; models `JSON.parse`
on the grammar described in the header comment. -/
def parseValue : Nat → List Char → Option (Json × List Char)
  | 0, _ => none
  | fuel + 1, cs =>
    match skipWs cs with
    | [] => none
    | c :: rest =>
      if c = '"' then
        (parseStringBody (rest.length + 1) rest).map (fun r => (Json.str (String.mk r.1), r.2))
      else if c = 't' then
        match rest with
        | 'r' :: 'u' :: 'e' :: rest' => some (Json.bool true, rest')
        | _ => none
      else if c = 'f' then
        match rest with
        | 'a' :: 'l' :: 's' :: 'e' :: rest' => some (Json.bool false, rest')
        | _ => none
      else if c = 'n' then
        match rest with
        | 'u' :: 'l' :: 'l' :: rest' => some (Json.null, rest')
        | _ => none
      else if c = '[' then
        match skipWs rest with
        | ']' :: rest' => some (Json.arr [], rest')
        | _ => (parseElems fuel rest).map (fun r => (Json.arr r.1, r.2))
      else if c = lbrace then
        match skipWs rest with
        | r :: rest' =>
          if r = rbrace then some (Json.obj [], rest')
          else (parseFields fuel rest).map (fun r2 => (Json.obj (dedupFields r2.1), r2.2))
        | [] => none
      else
        (parseNumber (c :: rest)).map (fun r => (Json.num r.1, r.2))

/-- Comma-separated array elements up to the closing bracket. -/
def parseElems : Nat → List Char → Option (List Json × List Char)
  | 0, _ => none
  | fuel + 1, cs =>
    match parseValue fuel cs with
    | none => none
    | some (v, rest) =>
      match skipWs rest with
      | ',' :: rest' => (parseElems fuel rest').map (fun r => (v :: r.1, r.2))
      | ']' :: rest' => some ([v], rest')
      | _ => none

/-- Comma-separated object fields up to the closing brace, in raw order
(duplicate keys are resolved by `dedupFields` at the call site). -/
def parseFields : Nat → List Char → Option (List (String × Json) × List Char)
  | 0, _ => none
  | fuel + 1, cs =>
    match skipWs cs with
    | c :: rest =>
      if c = '"' then
        match parseStringBody (rest.length + 1) rest with
        | none => none
        | some (key, rest') =>
          match skipWs rest' with
          | ':' :: rest'' =>
            match parseValue fuel rest'' with
            | none => none
            | some (v, rest3) =>
              match skipWs rest3 with
              | ',' :: rest4 =>
                (parseFields fuel rest4).map
                  (fun r => ((String.mk key, v) :: r.1, r.2))
              | r4 :: rest4 =>
                if r4 = rbrace then some ([(String.mk key, v)], rest4) else none
              | [] => none
          | _ => none
      else none
    | [] => none

end

/-- Entry point of the JSON reader: a value followed only by whitespace.
Returns `none` exactly where `JSON.parse` throws (within the modelled
grammar). -/
def parseJson (s : String) : Option Json :=
  match parseValue (s.length + 1) s.data with
  | some (j, rest) => if skipWs rest = [] then some j else none
  | none => none

/-! ## String helpers shared by several components -/

/-- Whitespace trim on character lists (helper for `jsTrim`). -/
def trimChars (cs : List Char) : List Char :=
  ((cs.dropWhile Char.isWhitespace).reverse.dropWhile Char.isWhitespace).reverse

/-- JavaScript `s.trim()` (ASCII whitespace suffices for every string the
module compares after trimming). -/
def jsTrim (s : String) : String :=
  String.mk (trimChars s.data)

/-- Split of a character list at every occurrence of `sep`, JavaScript
`String.prototype.split` semantics: `""` splits to `[""]`, a trailing
separator yields a trailing empty piece. -/
def splitCharAux (sep : Char) : List Char → List (List Char)
  | [] => [[]]
  | c :: cs =>
    let r := splitCharAux sep cs
    if c = sep then [] :: r else (c :: r.headI) :: r.tail

/-- JavaScript `s.split(sep)` for a one-character separator. -/
def splitOnChar (sep : Char) (s : String) : List String :=
  (splitCharAux sep s.data).map String.mk

/-- JavaScript `array.join(sep)`. -/
def joinWith (sep : String) : List String → String
  | [] => ""
  | [l] => l
  | l :: ls => l ++ sep ++ joinWith sep ls

/-! ## Data model: tool calls, messages, ambient world -/

/-- One tool call carried by an assistant message.  `id` and `name`
(`function.name`) use `""` for the absent value; `arguments` is the raw
JSON-encoded argument string (`function.arguments`). -/
structure ToolCall where
  id : String
  name : String
  arguments : String
deriving DecidableEq, Repr

/-- The `tool_calls` property of an assistant message: the code
distinguishes a missing property, a present-but-nullish one, and a
present list (which may be empty). -/
inductive ToolCallsField where
  | absent
  | nullish
  | present (calls : List ToolCall)
deriving DecidableEq, Repr

/-- Chat-completions message union.  `user`, `system` and `tool` contents
are strings on the wire; assistant content may be nullish. -/
inductive Message where
  | system (content : String)
  | user (content : String)
  | assistant (content : Option String) (toolCalls : ToolCallsField)
  | tool (content : String) (toolCallId : String)
deriving DecidableEq, Repr

/-- Ambient state read by the module: the disk (`fs.readFileSync`, as a
partial map from path to file content), `new Date().toDateString()` and
`process.cwd()`. -/
structure World where
  disk : String → Option String
  nowDate : String
  cwd : String

/-- List of calls of the non-null `tool_calls` list of a message
(`message.role === 'assistant' && 'tool_calls' in message &&
message.tool_calls` all in one); empty for every other shape. -/
def callsOf : Message → List ToolCall
  | .assistant _ (.present calls) => calls
  | _ => []

/-- Ids carried by `callsOf`. -/
def callIdsOf (m : Message) : List String :=
  (callsOf m).map (fun tc => tc.id)

/-! ## C2: tool-call classifier (`extractFileOperationFromToolCall`) -/

/-- Kind of an extracted file operation. -/
inductive OpType where
  | read
  | write
  | edit
deriving DecidableEq, Repr

/-- Extracted file operation (`FileOperation`).  The source interface also
declares an optional `lineChanges` field, which no code path ever sets or
reads; it is omitted.  `content` holds the JSON value assigned by the
classifier (the raw result string for reads, `args.content` for writes).
`filepath` holds the raw assigned value: the `absolute_paths[0]` arm
copies it without a type check, so it need not be a string. -/
structure FileOperation where
  type : OpType
  filepath : Json
  content : Option Json
  toolCallId : String

mutual

/-- JavaScript `String()` coercion of a JSON value, applied where a raw
value flows into a string position (an object property key).  An array
coerces to the `String()` of its elements joined with commas, a `null`
element contributing the empty string (`Array.prototype.join`). -/
def jsToStr : Json → String
  | .null => "null"
  | .bool true => "true"
  | .bool false => "false"
  | .num n => toString n
  | .str s => s
  | .arr es => jsToStrArr es
  | .obj _ => "[object Object]"

def jsToStrArr : List Json → String
  | [] => ""
  | [Json.null] => ""
  | [e] => jsToStr e
  | Json.null :: es => "," ++ jsToStrArr es
  | e :: es => jsToStr e ++ "," ++ jsToStrArr es

end

/-- Argument string as parsed by the classifier:
`JSON.parse(toolCall.function?.arguments || '{}')`. -/
def parsedArgs (tc : ToolCall) : Option Json :=
  parseJson (if tc.arguments = "" then lbraceS ++ rbraceS else tc.arguments)

/-- Translation of `extractFileOperationFromToolCall`.  Returns `none`
when the function name or the id is missing/empty, when the arguments do
not decode, or when no dispatch arm matches. -/
def extractFileOperationFromToolCall (tc : ToolCall) (result : String) :
    Option FileOperation :=
  if tc.name = "" ∨ tc.id = "" then none
  else
    match parsedArgs tc with
    | none => none
    | some args =>
      if tc.name = "read_file" ∨ tc.name = "read_many_files" then
        match args.getField "absolute_path" with
        | some (Json.str p) =>
          if p ≠ "" then
            some ⟨.read, .str p, some (.str result), tc.id⟩
          else
            match args.getField "absolute_paths" with
            | some (Json.arr (p0 :: _)) => some ⟨.read, p0, some (.str result), tc.id⟩
            | _ => none
        | _ =>
          match args.getField "absolute_paths" with
          | some (Json.arr (p0 :: _)) => some ⟨.read, p0, some (.str result), tc.id⟩
          | _ => none
      else if tc.name = "write_file" then
        match args.getField "file_path", args.getField "content" with
        | some (Json.str fp), some cv =>
          if fp ≠ "" ∧ cv.truthy then some ⟨.write, .str fp, some cv, tc.id⟩ else none
        | _, _ =>
          -- `args.file_path && args.content && typeof args.file_path === 'string'`:
          -- a truthy non-string `file_path` fails the `typeof` test.
          none
      else if tc.name = "replace" then
        match args.getField "file_path" with
        | some (Json.str fp) => if fp ≠ "" then some ⟨.edit, .str fp, none, tc.id⟩ else none
        | _ => none
      else none

/-! ## C1: file-range reader (`readFileRange`) -/

/-- Per-file line mapping `{ [lineNumber: number]: string }`, as an
association list with unique keys. -/
abbrev LineMap := List (Nat × String)

/-- Line mapping `start+1, start+2, ...` over a list of lines: the keys
written by the loop `for (i = startLine; i < endLine; i++)
lineMap[i+1] = lines[i]`, in write order. -/
def enumerate1 (start : Nat) : List String → LineMap
  | [] => []
  | l :: ls => (start + 1, l) :: enumerate1 (start + 1) ls

/-- Translation of `readFileRange`: split the file on `\n`, keep lines
`[startLine, endLine)` keyed 1-based.  Any read failure yields the empty
mapping.  `offset`/`limit` are the raw JSON numbers (`none` = absent);
`limit` equal to `0` is falsy and means "to end of file";
`Math.max(0, offset || 0)` is the `Int.toNat` clamp. -/
def readFileRange (w : World) (filepath : String) (offset limit : Option Int) :
    LineMap :=
  match w.disk filepath with
  | none => []
  | some content =>
    let lines := splitOnChar '\n' content
    let startLine : Nat := (offset.getD 0).toNat
    let endLine : Nat :=
      match limit with
      | some l => if l = 0 then lines.length else min lines.length ((startLine : Int) + l).toNat
      | none => lines.length
    enumerate1 startLine ((lines.drop startLine).take (endLine - startLine))

/-! ## C5: virtual filesystem builder (`buildVirtualFileSystem`) -/

/-- Virtual filesystem `path -> line map`, as an association list whose
key order is JavaScript object insertion order. -/
abbrev VFS := List (String × LineMap)

/-- Lookup in an association list with string keys. -/
def alistGet {α : Type} (l : List (String × α)) (key : String) : Option α :=
  (l.find? (fun p => p.1 == key)).map (fun p => p.2)

/-- JavaScript object property write: existing key keeps its position,
new key is appended. -/
def alistSet {α : Type} (l : List (String × α)) (key : String) (v : α) :
    List (String × α) :=
  if l.any (fun p => p.1 == key) then
    l.map (fun p => if p.1 == key then (p.1, v) else p)
  else
    l ++ [(key, v)]

/-- JavaScript numeric-keyed object write for line maps. -/
def lineMapSet (m : LineMap) (key : Nat) (v : String) : LineMap :=
  if m.any (fun p => p.1 == key) then
    m.map (fun p => if p.1 == key then (p.1, v) else p)
  else
    m ++ [(key, v)]

/-- `Object.assign(target, src)`: every key of `src` written into
`target`. -/
def lineMapMerge (target src : LineMap) : LineMap :=
  src.foldl (fun acc p => lineMapSet acc p.1 p.2) target

/-- Offset argument for a read operation: `args.offset || 0` (numbers
only; the module never receives non-numeric offsets from its callers). -/
def argOffset (args : Json) : Int :=
  match args.getField "offset" with
  | some (Json.num n) => n
  | _ => 0

/-- Limit argument for a read operation: `args.limit`, absent unless a
number. -/
def argLimit (args : Json) : Option Int :=
  match args.getField "limit" with
  | some (Json.num n) => some n
  | _ => none

/-- `readFileRange` called with the raw `filepath` value of a file
operation.  Only a string can name a file of the modeled disk: on any
other value `fs.readFileSync` fails (a `TypeError`, or a bad descriptor
for a number — the modeled filesystem has no open descriptors) and the
catch yields the empty mapping. -/
def readFileRangeRaw (w : World) (filepath : Json) (offset limit : Option Int) :
    LineMap :=
  match filepath with
  | Json.str s => readFileRange w s offset limit
  | _ => []

/-- One step of `buildVirtualFileSystem`'s loop: fold a classified pair
into the accumulated filesystem when the raw filepath value is truthy
(`if (operation && operation.filepath)`).  The property key is the
JavaScript `String()` coercion of the raw value.  A read merges the
freshly-read range into the path's mapping; a write/edit replaces the
mapping with the whole current file.  (The source also accumulates a
`trackedFiles` set that nothing reads; it is omitted.) -/
def vfsStep (w : World) (vfs : VFS) (pair : ToolCall × String) : VFS :=
  match extractFileOperationFromToolCall pair.1 pair.2 with
  | none => vfs
  | some op =>
    if op.filepath.truthy then
      let key := jsToStr op.filepath
      match op.type with
      | .read =>
        let args := (parsedArgs pair.1).getD Json.null
        let fileLines := readFileRangeRaw w op.filepath (some (argOffset args)) (argLimit args)
        alistSet vfs key (lineMapMerge ((alistGet vfs key).getD []) fileLines)
      | _ =>
        alistSet vfs key (readFileRangeRaw w op.filepath none none)
    else vfs

/-- Translation of `buildVirtualFileSystem`. -/
def buildVirtualFileSystem (w : World) (pairs : List (ToolCall × String)) : VFS :=
  pairs.foldl (vfsStep w) []

/-- Path keys of the virtual filesystem, in emission order: exactly the
file-section headings (`## <path>`) of the Current File States block. -/
def vfsPaths (vfs : VFS) : List String :=
  vfs.map (fun p => p.1)

/-! ## C3: strategy analyzer (`analyzeToolCallStrategy`) -/

/-- Result of the strategy analysis.  `lastToolCallIds` models the
JavaScript `Set` as a list of first occurrences. -/
structure Strategy where
  keepLastToolSequence : Bool
  lastToolCallIds : List String
deriving DecidableEq, Repr

/-- Insertion-ordered deduplication, the contents of `new Set(list)`. -/
def setOfList (l : List String) : List String :=
  l.foldl (fun acc x => if acc.contains x then acc else acc ++ [x]) []

/-- Translation of the local helper `findAssistantMessageWithToolCalls`:
the tool-call list of the first assistant message whose non-null
`tool_calls` contains the id. -/
def findAssistantMessageWithToolCalls (conv : List Message) (toolCallId : String) :
    Option (List ToolCall) :=
  match conv with
  | [] => none
  | m :: rest =>
    match m with
    | .assistant _ (.present calls) =>
      if calls.any (fun tc => tc.id == toolCallId) then some calls
      else findAssistantMessageWithToolCalls rest toolCallId
    | _ => findAssistantMessageWithToolCalls rest toolCallId

/-- Shared arm of the analyzer for a trailing tool result with id `tid`
(`lastMessage.role === 'tool'` and the Please-continue variant). -/
def strategyForToolId (conv : List Message) (tid : String) : Strategy :=
  if tid ≠ "" then
    match findAssistantMessageWithToolCalls conv tid with
    | some calls =>
      ⟨true, setOfList ((calls.map (fun tc => tc.id)).filter (fun i => i ≠ ""))⟩
    | none => ⟨true, [tid]⟩
  else
    ⟨true, []⟩

/-- Translation of `analyzeToolCallStrategy`. -/
def analyzeToolCallStrategy (realConversation : List Message) : Strategy :=
  match realConversation.getLast? with
  | none => ⟨false, []⟩
  | some lastMessage =>
    match lastMessage with
    | .tool _ tid => strategyForToolId realConversation tid
    | .user c =>
      if jsTrim c = "Please continue." ∧ realConversation.length ≥ 2 then
        match realConversation.dropLast.getLast? with
        | some (.tool _ tid) => strategyForToolId realConversation tid
        | _ => ⟨false, []⟩
      else ⟨false, []⟩
    | _ => ⟨false, []⟩


/-! ## C7 helpers: context extraction and system-prompt composition -/

/-- Scan for the first position where the literal `lit` is followed by a
non-empty run of characters not satisfying `stop`; returns that run.
This is the behaviour of `s.match(/lit([^stop]+)/)` capture group 1. -/
def matchCapture (lit : List Char) (stop : Char → Bool) : List Char → Option (List Char)
  | [] => none
  | c :: cs =>
    if lit.isPrefixOf (c :: cs) then
      let capture := ((c :: cs).drop lit.length).takeWhile (fun ch => !(stop ch))
      if capture ≠ [] then some capture else matchCapture lit stop cs
    else matchCapture lit stop cs

/-- Translation of `extractContextInfo`: date, operating system and
working directory probed out of the canned user context by the three
regexes, with the ambient defaults. -/
def extractContextInfo (w : World) (cannedUserContext : String) :
    String × String × String :=
  if cannedUserContext = "" then (w.nowDate, "unknown", w.cwd)
  else
    let cs := cannedUserContext.data
    let date :=
      match matchCapture ("Today\x27s date is ").data (fun c => c = '.' ∨ c = '\n') cs with
      | some cap => jsTrim (String.mk cap)
      | none => w.nowDate
    let os :=
      match matchCapture ("My operating system is: ").data (fun c => c = '\n') cs with
      | some cap => jsTrim (String.mk cap)
      | none => "unknown"
    let cwd :=
      match matchCapture ("I\x27m currently working in the directory: ").data (fun c => c = '\n') cs with
      | some cap => jsTrim (String.mk cap)
      | none => w.cwd
    (date, os, cwd)

/-- Verbatim text of `createCleanedSystemPrompt` (a stable string
constant in the source). -/
def createCleanedSystemPrompt : String :=
  "You are an interactive CLI agent specializing in software engineering tasks. Your primary approach is to systematically discover and understand file content to build complete knowledge before taking action.\n\n# Core Philosophy: File Content Discovery\n\nProgramming tasks require understanding existing code, patterns, and structures. Your workflow centers on:\n\n1. **Search First:** Use search tools to locate relevant files, functions, and patterns\n2. **Read Systematically:** Read discovered files to understand implementation details\n3. **Build Context:** Continue searching and reading until you have complete understanding\n4. **Act Informed:** Only implement changes after thorough file content analysis\n\n# Primary Workflow: Discovery ‚Üí Understanding ‚Üí Action\n\n## Phase 1: Discovery\n- **Search for Patterns:** Use search tools to find relevant code patterns, function names, imports\n- **Identify Key Files:** Locate configuration files, main implementation files, test files\n- **Map Dependencies:** Find how components connect by searching for imports and references\n\n## Phase 2: Understanding  \n- **Read Core Files:** Read the main files identified during discovery\n- **Understand Conventions:** Analyze code style, architectural patterns, naming conventions\n- **Study Context:** Read surrounding code to understand how pieces fit together\n- **Verify Assumptions:** Search for additional examples to confirm understanding\n\n## Phase 3: Informed Action\n- **Plan with Knowledge:** Create implementation plans based on discovered patterns\n- **Follow Conventions:** Implement using the exact styles and patterns found in existing code\n- **Maintain Consistency:** Ensure changes integrate seamlessly with existing codebase\n\n# Tool Usage Strategy\n\n## Search Tools (Primary Discovery Method)\n- Use search extensively to find relevant code before reading files\n- Search for function names, class names, import patterns, and usage examples\n- Search for similar implementations to understand existing patterns\n\n## Read Tools (Deep Understanding)\n- Read files systematically after identifying them through search\n- Focus on understanding implementation details, not just skimming\n- Read related files to understand full context\n\n## Parallel Operations\n- Execute multiple search operations in parallel to build comprehensive understanding quickly\n- Read multiple related files in parallel once identified\n\n# Core Principles\n\n- **Never Assume:** Always search and read to verify what exists in the codebase\n- **Understand Before Acting:** Build complete understanding through file content analysis\n- **Follow Discovered Patterns:** Mimic exactly what you find in existing code\n- **Context is King:** Read surrounding code to understand how changes should integrate\n- **Search ‚Üí Read ‚Üí Understand ‚Üí Act:** This is your fundamental workflow\n\n# Operational Guidelines\n\n- **Concise Communication:** Use minimal text output, let tools do the work\n- **Tool-Centric Approach:** Prefer using tools over making assumptions\n- **Absolute Paths:** Always use absolute paths for file operations\n- **Security First:** Never expose secrets or sensitive information"

/-! ## C7: virtual-filesystem rendering -/

/-- Lookup in a line map. -/
def lineMapGet (m : LineMap) (k : Nat) : Option String :=
  (m.find? (fun p => p.1 == k)).map (fun p => p.2)

/-- One maximal consecutive run of line numbers with its content. -/
structure LineRange where
  start : Nat
  stop : Nat
  content : List String
deriving DecidableEq, Repr

/-- Translation of `groupLinesIntoRanges`: sort the keys ascending and
group maximal runs of consecutive line numbers. -/
def groupLinesIntoRanges (lines : LineMap) : List LineRange :=
  let sorted := (lines.map (fun p => p.1)).mergeSort (fun a b => a ≤ b)
  match sorted with
  | [] => []
  | k0 :: ks =>
    let step := fun (st : LineRange × List LineRange) (k : Nat) =>
      if k = st.1.stop + 1 then
        (⟨st.1.start, k, st.1.content ++ [(lineMapGet lines k).getD ""]⟩, st.2)
      else
        (⟨k, k, [(lineMapGet lines k).getD ""]⟩, st.2 ++ [st.1])
    let fin := ks.foldl step (⟨k0, k0, [(lineMapGet lines k0).getD ""]⟩, [])
    fin.2 ++ [fin.1]

/-- Rendering of one line range inside a file section. -/
def renderRange (r : LineRange) : String :=
  (if r.start = r.stop then "**Line " ++ toString r.start ++ ":**\n"
   else "**Lines " ++ toString r.start ++ "-" ++ toString r.stop ++ ":**\n") ++
  "```\n" ++ joinWith "\n" r.content ++ "\n```\n\n"

/-- Rendering of one file section; a tracked path with an empty mapping
renders the placeholder and (as in the source loop, which `continue`s)
never a trailing divider. -/
def renderVfsEntry (isLast : Bool) (filepath : String) (lm : LineMap) : String :=
  "## " ++ filepath ++ "\n" ++
  (if lm.length = 0 then "*File was modified but content not tracked*\n\n"
   else String.join ((groupLinesIntoRanges lm).map renderRange) ++
     (if isLast then "" else "--- END OF FILE ---\n\n"))

/-- File sections in key order. -/
def renderVfsEntries : VFS → String
  | [] => ""
  | [(p, lm)] => renderVfsEntry true p lm
  | (p, lm) :: rest => renderVfsEntry false p lm ++ renderVfsEntries rest

/-- Translation of `generateVirtualFileSystemContext`. -/
def generateVirtualFileSystemContext (vfs : VFS) : String :=
  if vfs.length = 0 then ""
  else
    "\n\n‚ïê‚ïê‚ïê üìÅ CURRENT FILE STATES ‚ïê‚ïê‚ïê\n\n" ++
      "The following files have been read or modified during this conversation:\n\n" ++
      renderVfsEntries vfs

/-! ## C6: search-result truncator (`truncateSearchResult`) -/

/-- Does the character list start with a colon (continuation of the hit
regex after the digit run)? -/
def startsColon : List Char → Bool
  | c :: _ => c = ':'
  | [] => false

/-- Character-level test for a grep hit line. -/
def hitLineChars : List Char → Bool
  | [] => false
  | c :: rest =>
    if c = 'L' then
      !(rest.takeWhile Char.isDigit).isEmpty && startsColon (rest.dropWhile Char.isDigit)
    else false

/-- Test for a grep hit line, the regex `^L\d+:`. -/
def hitLine (line : String) : Bool :=
  hitLineChars line.data

/-- Number of hit lines. -/
def hitCount (lines : List String) : Nat :=
  (lines.filter hitLine).length

/-- Decomposition of a line along the regex `^(L\d+: )(.+)$`: digit run
and non-empty content after the `: ` separator. -/
def afterDigits (ds : List Char) : List Char → Option (List Char × List Char)
  | c2 :: c3 :: content =>
    if c2 = ':' ∧ c3 = ' ' ∧ ¬ content.isEmpty then some (ds, content) else none
  | _ => none

/-- Character-level decomposition along `^(L\d+: )(.+)$`. -/
def splitHitPartsChars : List Char → Option (List Char × List Char)
  | [] => none
  | c :: rest =>
    if c = 'L' then
      if (rest.takeWhile Char.isDigit).isEmpty then none
      else afterDigits (rest.takeWhile Char.isDigit) (rest.dropWhile Char.isDigit)
    else none

def splitHitParts (line : String) : Option (List Char × List Char) :=
  splitHitPartsChars line.data

/-- Shortening of one kept hit line to 1000 content characters plus an
ellipsis (`line.replace(/^(L\d+: )(.+)$/, ...)`). -/
def truncateLongLine (line : String) : String :=
  match splitHitParts line with
  | some (ds, content) =>
    if content.length ≤ 1000 then line
    else String.mk ('L' :: ds ++ [':', ' ']) ++ String.mk (content.take 1000) ++ "..."
  | none => line

/-- The synthetic truncation marker line. -/
def truncatedNotice (n : Nat) : String :=
  "[... truncated " ++ toString n ++ " more results]"

/-- Line-processing loop of `truncateSearchResult`: keep the first 20 hit
lines (long ones shortened), keep interleaved non-hit lines up to the
cutoff, then emit the single notice line and stop. -/
def processSearchLines (total : Nat) : Nat → List String → List String
  | _, [] => []
  | count, line :: rest =>
    if hitLine line then
      if count + 1 > 20 then [truncatedNotice (total - 20)]
      else truncateLongLine line :: processSearchLines total (count + 1) rest
    else
      if count ≤ 20 then line :: processSearchLines total count rest
      else processSearchLines total count rest

/-- Translation of `truncateSearchResult`.  Anything but a decodable
`search_file_content` result with a truthy string `output` field is
returned unchanged. -/
def truncateSearchResult (functionName result : String) : String :=
  if functionName ≠ "search_file_content" then result
  else
    match parseJson result with
    | none => result
    | some parsed =>
      match parsed.getField "output" with
      | some (Json.str out) =>
        if out = "" then result
        else
          let lines := splitOnChar '\n' out
          let truncatedLines := processSearchLines (hitCount lines) 0 lines
          jsonStringify (parsed.setField "output" (Json.str (joinWith "\n" truncatedLines)))
      | _ => result

/-! ## C7: system-prompt composition (`buildContextStuffedSystemPrompt`) -/

/-- Rendering of one residual tool-call entry. -/
def formatToolCallEntry (isLast : Bool) (pair : ToolCall × String) : String :=
  let functionName := if pair.1.name = "" then "unknown" else pair.1.name
  let functionArgs := if pair.1.arguments = "" then lbraceS ++ rbraceS else pair.1.arguments
  let formattedArgs :=
    match parseJson functionArgs with
    | some parsedA => prettyJson "" parsedA
    | none => functionArgs
  "## " ++ functionName ++ "\n" ++
  "**Arguments:**\n```json\n" ++ formattedArgs ++ "\n```\n\n" ++
  "**Result:**\n```\n" ++ truncateSearchResult functionName pair.2 ++ "\n```\n\n" ++
  (if isLast then "" else "--- END OF TOOL CALL ---\n\n")

/-- Residual tool-call entries in original order. -/
def renderToolCallEntries : List (ToolCall × String) → String
  | [] => ""
  | [p] => formatToolCallEntry true p
  | p :: rest => formatToolCallEntry false p ++ renderToolCallEntries rest

/-- Translation of `buildContextStuffedSystemPrompt`. -/
def buildContextStuffedSystemPrompt (w : World) (toolCallPairs : List (ToolCall × String))
    (cannedUserContext : String) (virtualFileSystem : VFS) : String :=
  let info := extractContextInfo w cannedUserContext
  let base := createCleanedSystemPrompt ++
    "\n\n‚ïê‚ïê‚ïê üåç CURRENT ENVIRONMENT ‚ïê‚ïê‚ïê\n\n" ++
    "- **Date:** " ++ info.1 ++ "\n" ++
    "- **Operating System:** " ++ info.2.1 ++ "\n" ++
    "- **Current Working Directory:** " ++ info.2.2 ++ "\n" ++
    generateVirtualFileSystemContext virtualFileSystem
  if toolCallPairs.length > 0 then
    base ++
      "\n\n‚ïê‚ïê‚ïê üîß PREVIOUS TOOL CALLS AND RESULTS ‚ïê‚ïê‚ïê\n\n" ++
      renderToolCallEntries toolCallPairs
  else base

/-! ## C4: deconstruction (`deconstructMessages`) -/

/-- Result record of the deconstruction (`DeconstructedMessages`).
`toolCallPairs` is the residual (non-file-operation) movable pair list;
the id set is modelled as an insertion-ordered list. -/
structure DeconstructedMessages where
  systemPrompt : String
  cannedUserContext : String
  cannedAssistantReply : String
  realConversation : List Message
  toolCallPairs : List (ToolCall × String)
  virtualFileSystem : VFS
  fileOperationToolCallIds : List String

/-- First pass of the pairing: every non-empty-id tool call of every
assistant message of the whole input, as a `Map` (later occurrences of a
duplicate id overwrite the value, `Map.set` semantics). -/
def collectToolCallMap (msgs : List Message) : List (String × ToolCall) :=
  msgs.foldl
    (fun acc m =>
      (callsOf m).foldl
        (fun acc2 tc => if tc.id ≠ "" then alistSet acc2 tc.id tc else acc2) acc)
    []

/-- Second pass of the pairing: each tool message anywhere in the input
whose call is known and whose id is not protected by the strategy yields
a movable `(call, result)` pair, in input order. -/
def computeMovablePairs (msgs : List Message) (strat : Strategy) :
    List (ToolCall × String) :=
  let map := collectToolCallMap msgs
  msgs.filterMap (fun m =>
    match m with
    | .tool content tid =>
      if tid ≠ "" then
        match alistGet map tid with
        | some tc =>
          if strat.keepLastToolSequence ∧ strat.lastToolCallIds.contains tid then none
          else some (tc, content)
        | none => none
      else none
    | _ => none)

/-- Ids of the movable pairs that classify as file operations (computed
identically at two places in the source: inside `deconstructMessages` and
inside `filterToolCallsForVirtualFileSystem`). -/
def computeFileOperationToolCallIds (pairs : List (ToolCall × String)) : List String :=
  pairs.filterMap (fun p =>
    if (extractFileOperationFromToolCall p.1 p.2).isSome then some p.1.id else none)

/-- Translation of `filterToolCallsForVirtualFileSystem`: drop every pair
whose id belongs to a file operation. -/
def filterToolCallsForVirtualFileSystem (pairs : List (ToolCall × String)) :
    List (ToolCall × String) :=
  let ids := computeFileOperationToolCallIds pairs
  pairs.filter (fun p => ¬ ids.contains p.1.id)

/-- Translation of `deconstructMessages`. -/
def deconstructMessages (w : World) (finalMessages : List Message) :
    DeconstructedMessages :=
  if finalMessages.length < 3 then
    ⟨"", "", "", finalMessages, [], [], []⟩
  else
    let systemPrompt :=
      match finalMessages.get? 0 with
      | some (.system c) => c
      | _ => ""
    let cannedUserContext :=
      match finalMessages.get? 1 with
      | some (.user c) => c
      | _ => ""
    let cannedAssistantReply :=
      match finalMessages.get? 2 with
      | some (.assistant (some c) _) => c
      | _ => ""
    let realConversation := finalMessages.drop 3
    let strategy := analyzeToolCallStrategy realConversation
    let movable := computeMovablePairs finalMessages strategy
    ⟨systemPrompt, cannedUserContext, cannedAssistantReply, realConversation,
      filterToolCallsForVirtualFileSystem movable,
      buildVirtualFileSystem w movable,
      computeFileOperationToolCallIds movable⟩

/-! ## C8: message-list rebuilder (`buildNewMessagesArray`) -/

/-- Translation of `findToolCallById`: the first matching call of any
assistant message with a non-null tool-call list. -/
def findToolCallById (messages : List Message) (toolCallId : String) : Option ToolCall :=
  match messages with
  | [] => none
  | m :: rest =>
    match (callsOf m).find? (fun tc => tc.id == toolCallId) with
    | some tc => some tc
    | none => findToolCallById rest toolCallId

/-- Moved-id set of the rebuild: ids of the residual pairs kept in the
system prompt plus the file-operation ids replaced by the VFS. -/
def movedIds (d : DeconstructedMessages) : List String :=
  d.toolCallPairs.filterMap (fun p => if p.1.id ≠ "" then some p.1.id else none) ++
    d.fileOperationToolCallIds

/-- Function name used for truncating a kept tool result: the name of
the owning call found by `findToolCallById`, with the
`toolCall?.function?.name || ''` fallback. -/
def ownerName (real : List Message) (tid : String) : String :=
  match findToolCallById real tid with
  | some tc => tc.name
  | none => ""

/-- Emission of one real-conversation message by the rebuild loop
(`isLast` is `i === realConversation.length - 1`). -/
def rebuildMessage (strat : Strategy) (moved : List String) (real : List Message)
    (m : Message) (isLast : Bool) : List Message :=
  match m with
  | .tool content tid =>
    if tid ≠ "" ∧ ¬ moved.contains tid then
      [.tool (truncateSearchResult (ownerName real tid) content) tid]
    else []
  | .assistant content (.present calls) =>
    let keptToolCalls := calls.filter (fun tc => tc.id ≠ "" ∧ ¬ moved.contains tc.id)
    if keptToolCalls ≠ [] then [.assistant content (.present keptToolCalls)]
    else
      match content with
      | some c => if jsTrim c ≠ "" then [.assistant content .absent] else []
      | none => []
  | .assistant content .nullish =>
    match content with
    | some c => if jsTrim c ≠ "" then [.assistant content .nullish] else []
    | none => []
  | .assistant content .absent =>
    -- an assistant message without the `tool_calls` property falls through
    -- to the final `role !== 'system'` arm and is pushed unchanged
    [.assistant content .absent]
  | .user c =>
    if jsTrim c = "Please continue." then
      if isLast ∧ strat.keepLastToolSequence then [.user c] else []
    else [.user c]
  | .system _ => []

/-- Rebuild loop over the real conversation. -/
def rebuildConversation (strat : Strategy) (moved : List String) (real : List Message) :
    List Message → List Message
  | [] => []
  | m :: rest =>
    rebuildMessage strat moved real m rest.isEmpty ++
      rebuildConversation strat moved real rest

/-! ## C9: assistant collapser (`collapseConsecutiveAssistantMessages`) -/

/-- Role test used by the collapser. -/
def isAssistantRole : Message → Bool
  | .assistant _ _ => true
  | _ => false

/-- Accumulator of a run of consecutive assistant messages: collected
trimmed contents (first occurrence, exact-match dedup) and concatenated
tool calls. -/
abbrev RunAcc := List String × List ToolCall

/-- Absorption of one assistant message into the run accumulator. -/
def absorbAssistant (acc : RunAcc) (m : Message) : RunAcc :=
  let contents :=
    match m with
    | .assistant (some c) _ =>
      if jsTrim c ≠ "" ∧ ¬ acc.1.contains (jsTrim c) then acc.1 ++ [jsTrim c] else acc.1
    | _ => acc.1
  (contents, acc.2 ++ callsOf m)

/-- Consolidated message of a finished run: nothing when both collections
are empty, otherwise one assistant message with joined contents and the
concatenated call list (`tool_calls` set only when non-empty). -/
def consolidateRun (acc : RunAcc) : List Message :=
  if acc.1 = [] ∧ acc.2 = [] then []
  else
    [.assistant (some (joinWith "\n" acc.1))
      (if acc.2 = [] then .absent else .present acc.2)]

/-- One-pass translation of `collapseConsecutiveAssistantMessages`: the
optional accumulator holds the run currently being collected. -/
def collapseGo (acc : Option RunAcc) : List Message → List Message
  | [] =>
    match acc with
    | none => []
    | some a => consolidateRun a
  | m :: rest =>
    if isAssistantRole m then
      collapseGo (some (absorbAssistant ((acc.getD ([], []))) m)) rest
    else
      (match acc with
       | none => []
       | some a => consolidateRun a) ++ (m :: collapseGo none rest)

/-- Translation of `collapseConsecutiveAssistantMessages`. -/
def collapseConsecutiveAssistantMessages (messages : List Message) : List Message :=
  collapseGo none messages

/-- Translation of `buildNewMessagesArray` (the logging sink is pure
I/O with no effect on the return value and is omitted). -/
def buildNewMessagesArray (w : World) (d : DeconstructedMessages)
    (originalRealConversation : List Message) : List Message :=
  let sys := Message.system
    (buildContextStuffedSystemPrompt w d.toolCallPairs d.cannedUserContext
      d.virtualFileSystem)
  let strategy := analyzeToolCallStrategy originalRealConversation
  let moved := movedIds d
  collapseConsecutiveAssistantMessages
    (sys :: rebuildConversation strategy moved d.realConversation d.realConversation)

/-- Translation of the entry point `reconfigureFinalMessages`. -/
def reconfigureFinalMessages (w : World) (finalMessages : List Message) : List Message :=
  let d := deconstructMessages w finalMessages
  buildNewMessagesArray w d d.realConversation

/-! ## Observations used to state the verified properties -/

/-- Sequential check of invariant I1 (tool linkage): walking the list
with the set `seen` of tool-call ids announced so far, every tool
message must reference an already-seen id. -/
def validAcc (seen : List String) : List Message → Bool
  | [] => true
  | m :: rest =>
    match m with
    | .tool _ tid => seen.contains tid && validAcc seen rest
    | .assistant _ (.present calls) =>
      validAcc (seen ++ calls.map (fun tc => tc.id)) rest
    | _ => validAcc seen rest

/-- Invariant I1 on a whole message list: every tool message's
`tool_call_id` appears in the tool-call list of an earlier assistant
message. -/
def toolLinkValid (l : List Message) : Bool :=
  validAcc [] l

/-- Role test for system messages. -/
def isSystemRole : Message → Bool
  | .system _ => true
  | _ => false

/-- Test for a user message whose trimmed content is exactly
`"Please continue."`. -/
def isPCUser : Message → Bool
  | .user c => jsTrim c == "Please continue."
  | _ => false

/-- Test for any other user message. -/
def isOtherUser : Message → Bool
  | .user c => jsTrim c != "Please continue."
  | _ => false

/-- Does the message announce the tool-call id `t` (on a non-null
tool-call list)? -/
def hasCallId (t : String) (m : Message) : Bool :=
  (callIdsOf m).contains t

/-- All tool-call ids announced by assistant messages of a list, in
order. -/
def asstIds (l : List Message) : List String :=
  l.foldr (fun m acc => callIdsOf m ++ acc) []

/-- Movable pair list of a whole refocus run: empty for short inputs
(the early return of `deconstructMessages`), otherwise the pairs outside
the protected last cycle. -/
def movablePairsOf (msgs : List Message) : List (ToolCall × String) :=
  if msgs.length < 3 then []
  else computeMovablePairs msgs (analyzeToolCallStrategy (msgs.drop 3))

/-- Ids already collected in a pending collapser run. -/
def accIds : Option RunAcc → List String
  | none => []
  | some a => a.2.map (fun tc => tc.id)

/-- The `Please continue.` tail a rebuilt conversation may keep: the last
real-conversation message when it is such a user message and the last
tool cycle is kept; nothing otherwise. -/
def pcTail (strat : Strategy) (rest : List Message) : List Message :=
  match rest.getLast? with
  | some (.user c) =>
    if jsTrim c = "Please continue." ∧ strat.keepLastToolSequence then [.user c] else []
  | _ => []

/-! ## Concrete example data used by witnesses and counterexamples -/

/-- World with an empty disk. -/
def wEmpty : World :=
  ⟨fun _ => none, "Sun Oct 11 2026", "/work"⟩

/-- World whose only file `/f` ends in a newline. -/
def wNl : World :=
  ⟨fun p => if p = "/f" then some "one\ntwo\n" else none, "Sun Oct 11 2026", "/work"⟩

/-- World whose only file is `/a.txt`. -/
def wA : World :=
  ⟨fun p => if p = "/a.txt" then some "one" else none, "Sun Oct 11 2026", "/work"⟩

/-- Well-formed `read_file` call targeting `/a.txt`. -/
def tcReadA : ToolCall :=
  ⟨"c1", "read_file", "\x7b\"absolute_path\":\"/a.txt\"\x7d"⟩

/-- Input whose real conversation is a single kept read cycle: the
canned prefix, the reading assistant and its tool result. -/
def msgsC5x : List Message :=
  [.system "s", .user "u", .assistant (some "ok") .absent,
   .assistant none (.present [tcReadA]), .tool "one" "c1"]

/-- Same conversation continued by an ordinary user question, so the
read cycle is movable. -/
def msgsC5w : List Message :=
  msgsC5x ++ [.user "what next?"]

/-- Input that is tool-link valid but whose only tool result is owned by
the canned assistant acknowledgement at index 2. -/
def msgsC1x : List Message :=
  [.system "s", .user "u",
   .assistant (some "ok") (.present [⟨"c1", "shell", lbraceS ++ rbraceS⟩]),
   .tool "r" "c1"]

/-- Input whose real conversation is a complete, owned last tool cycle. -/
def msgsC1w : List Message :=
  [.system "s", .user "u", .assistant (some "ok") .absent,
   .assistant none (.present [⟨"c1", "shell", lbraceS ++ rbraceS⟩]),
   .tool "r" "c1"]

/-- Input ending in a `search_file_content` result whose JSON encoding
uses a space after the colon. -/
def msgsC3x : List Message :=
  [.system "s", .user "u", .assistant (some "ok") .absent,
   .assistant none (.present [⟨"c1", "search_file_content", "\x7b\"pattern\":\"hi\"\x7d"⟩]),
   .tool "\x7b\"output\": \"hi\"\x7d" "c1"]

/-- Input ending in an owned non-search tool result. -/
def msgsC3w : List Message :=
  [.system "s", .user "u", .assistant (some "ok") .absent,
   .assistant none (.present [⟨"c2", "shell", lbraceS ++ rbraceS⟩]),
   .tool "done" "c2"]

/-- Real conversation whose trailing tool result has an empty id that is
nevertheless owned by an assistant call with the empty id. -/
def convC4x : List Message :=
  [.assistant none (.present [⟨"", "f", ""⟩]), .tool "r" ""]

/-- Real conversation ending in one result of a two-call parallel
fan-out. -/
def convC4w : List Message :=
  [.assistant none (.present [⟨"a", "f", ""⟩, ⟨"b", "g", ""⟩]),
   .tool "r1" "a", .tool "r2" "b"]

/-- The `write_file` call with empty `content`. -/
def tcC9x : ToolCall :=
  ⟨"id1", "write_file", "\x7b\"file_path\":\"/tmp/a.txt\",\"content\":\"\"\x7d"⟩

/-- The `write_file` call with non-empty `content`. -/
def tcC9w : ToolCall :=
  ⟨"id1", "write_file", "\x7b\"file_path\":\"/tmp/a.txt\",\"content\":\"x\"\x7d"⟩

/-- Well-formed `read_file` call with a missing (empty) id. -/
def tcC10 : ToolCall :=
  ⟨"", "read_file", "\x7b\"absolute_path\":\"/a.txt\"\x7d"⟩

/-- Concrete `search_file_content` result with two hit lines. -/
def sC6 : String :=
  "\x7b\"output\":\"L1: a\\nL2: b\"\x7d"

/-- Its decoded object. -/
def objC6 : Json :=
  Json.obj [("output", Json.str "L1: a\nL2: b")]

/-! ## Support lemmas -/

theorem setOfList_mem (l : List String) (x : String) :
    x ∈ setOfList l ↔ x ∈ l := by
  have key : ∀ (l acc : List String),
      (x ∈ l.foldl (fun acc y => if acc.contains y then acc else acc ++ [y]) acc ↔
        x ∈ acc ∨ x ∈ l) := by
    intro l
    induction l with
    | nil => simp
    | cons y ys ih =>
      intro acc
      simp only [List.foldl_cons]
      by_cases hy : acc.contains y = true
      · rw [if_pos hy, ih]
        have hmem : y ∈ acc := by simpa using hy
        constructor
        · rintro (h | h)
          · exact Or.inl h
          · exact Or.inr (List.mem_cons_of_mem _ h)
        · rintro (h | h)
          · exact Or.inl h
          · rcases List.mem_cons.mp h with rfl | h
            · exact Or.inl hmem
            · exact Or.inr h
      · rw [if_neg hy, ih]
        simp [List.mem_append, List.mem_cons]
        tauto
  rw [setOfList, key]
  simp

theorem splitCharAux_ne_nil (sep : Char) (cs : List Char) :
    splitCharAux sep cs ≠ [] := by
  cases cs with
  | nil => simp [splitCharAux]
  | cons c cs =>
    rw [splitCharAux]
    split <;> simp

theorem splitCharAux_concat_sep (sep : Char) (cs : List Char) :
    splitCharAux sep (cs ++ [sep]) = splitCharAux sep cs ++ [[]] := by
  induction cs with
  | nil => simp [splitCharAux]
  | cons c cs ih =>
    by_cases hc : c = sep
    · subst hc
      simp [splitCharAux, ih]
    · rcases h : splitCharAux sep cs with _ | ⟨a, as⟩
      · exact absurd h (splitCharAux_ne_nil sep cs)
      · simp [splitCharAux, ih, h, hc]

theorem splitOnChar_concat_nl (s : String) :
    splitOnChar '\n' (s ++ "\n") = splitOnChar '\n' s ++ [""] := by
  have hdata : (s ++ "\n").data = s.data ++ ['\n'] := by
    simp [String.data_append]
  rw [splitOnChar, hdata, splitCharAux_concat_sep, List.map_append, splitOnChar]
  rfl

theorem enumerate1_concat (n : Nat) (xs : List String) (y : String) :
    enumerate1 n (xs ++ [y]) = enumerate1 n xs ++ [(n + xs.length + 1, y)] := by
  induction xs generalizing n with
  | nil => simp [enumerate1]
  | cons x xs ih =>
    simp only [List.cons_append, enumerate1, List.length_cons, List.append_eq]
    rw [ih (n + 1)]
    have harith : n + 1 + xs.length + 1 = n + (xs.length + 1) + 1 := by omega
    rw [harith]

/-! ## C8: the file reader and trailing newlines -/

/-- Claim C8, counterexample to the claim as stated: the file
`"one\ntwo\n"` read with default offset and limit yields a mapping with
a third, empty entry, not the mapping `{1 ↦ "one", 2 ↦ "two"}`. -/
theorem claim_C8_counterexample :
    readFileRange wNl "/f" none none = [(1, "one"), (2, "two"), (3, "")] ∧
    readFileRange wNl "/f" none none ≠ [(1, "one"), (2, "two")] := by
  constructor
  · rfl
  · decide

/-- Claim C8, amended: `readFileRange` splits the content on `\n` and a
terminal newline DOES create a trailing empty entry: a file of the form
`s ++ "\n"` read with default offset and limit yields the 1-based
enumeration of `split(s) ++ [""]`, whose last entry is empty. -/
theorem claim_C8 (w : World) (p s' : String) (h : w.disk p = some (s' ++ "\n")) :
    readFileRange w p none none = enumerate1 0 (splitOnChar '\n' s' ++ [""]) ∧
    (readFileRange w p none none).getLast? =
      some ((splitOnChar '\n' s').length + 1, "") := by
  have heq : readFileRange w p none none = enumerate1 0 (splitOnChar '\n' s' ++ [""]) := by
    unfold readFileRange
    rw [h]
    simp only [splitOnChar_concat_nl, Option.getD_none, Int.toNat_zero, List.drop_zero,
      Nat.sub_zero, List.take_length]
  refine ⟨heq, ?_⟩
  rw [heq, enumerate1_concat]
  simp [List.getLast?_concat]

/-- Claim C8, witness: the theorem applied to the concrete file
`"one\ntwo\n"`. -/
theorem claim_C8_witness :
    readFileRange wNl "/f" none none =
      enumerate1 0 (splitOnChar '\n' "one\ntwo" ++ [""]) ∧
    (readFileRange wNl "/f" none none).getLast? =
      some ((splitOnChar '\n' "one\ntwo").length + 1, "") :=
  claim_C8 wNl "/f" "one\ntwo" rfl

/-! ## C9: the `write_file` classifier arm -/

/-- Claim C9, counterexample to the claim as stated: a well-formed
`write_file` call whose `content` field is present but equal to the
empty string (which is falsy) classifies as `none`, not as a write
operation. -/
theorem claim_C9_counterexample :
    extractFileOperationFromToolCall tcC9x "ok" = none := by
  rfl

/-- Claim C9, amended: a `write_file` call (non-empty id) whose
arguments decode with `file_path` a non-empty string and `content`
present and truthy classifies as a write operation for that path, with
no range. -/
theorem claim_C9 (tc : ToolCall) (r : String) (j : Json) (fp : String) (cv : Json)
    (hid : tc.id ≠ "") (hname : tc.name = "write_file")
    (hargs : parsedArgs tc = some j)
    (hfp : j.getField "file_path" = some (.str fp)) (hfp2 : fp ≠ "")
    (hcv : j.getField "content" = some cv) (hcvt : cv.truthy = true) :
    extractFileOperationFromToolCall tc r = some ⟨.write, .str fp, some cv, tc.id⟩ := by
  unfold extractFileOperationFromToolCall
  rw [if_neg (by simp [hname, hid]), hargs]
  simp [hname, hfp, hcv, hfp2, hcvt]

/-- Claim C9, witness: the amended theorem applied to a concrete
`write_file` call with content `"x"`. -/
theorem claim_C9_witness :
    extractFileOperationFromToolCall tcC9w "ok" =
      some ⟨.write, .str "/tmp/a.txt", some (.str "x"), tcC9w.id⟩ :=
  claim_C9 tcC9w "ok" (Json.obj [("file_path", Json.str "/tmp/a.txt"), ("content", Json.str "x")])
    "/tmp/a.txt" (Json.str "x") (by decide) rfl rfl rfl (by decide) rfl rfl

/-! ## C10: calls without an id are never file operations -/

/-- Claim C10: a tool call with a missing/empty id never classifies as a
file operation, regardless of name and arguments; consequently a pair
carrying it contributes nothing to the virtual filesystem and its id
never enters the file-operation id set. -/
theorem claim_C10 (w : World) (tc : ToolCall) (r : String)
    (rest : List (ToolCall × String)) (h : tc.id = "") :
    extractFileOperationFromToolCall tc r = none ∧
    buildVirtualFileSystem w ((tc, r) :: rest) = buildVirtualFileSystem w rest ∧
    computeFileOperationToolCallIds ((tc, r) :: rest) =
      computeFileOperationToolCallIds rest := by
  have hx : extractFileOperationFromToolCall tc r = none := by
    unfold extractFileOperationFromToolCall
    rw [if_pos (Or.inr h)]
  refine ⟨hx, ?_, ?_⟩
  · unfold buildVirtualFileSystem
    simp only [List.foldl_cons]
    have : vfsStep w [] (tc, r) = [] := by
      unfold vfsStep
      rw [hx]
    rw [this]
  · unfold computeFileOperationToolCallIds
    simp [hx]

/-- Claim C10, witness: a well-formed `read_file` call with an empty id. -/
theorem claim_C10_witness :
    extractFileOperationFromToolCall tcC10 "res" = none ∧
    buildVirtualFileSystem wA [(tcC10, "res")] = buildVirtualFileSystem wA [] ∧
    computeFileOperationToolCallIds [(tcC10, "res")] =
      computeFileOperationToolCallIds [] :=
  claim_C10 wA tcC10 "res" [] rfl

/-! ## C4: the strategy analyzer on a trailing tool result -/

/-- Claim C4, counterexample to the claim as stated: when the trailing
tool result's id is the empty string the analyzer never looks the owner
up, so even though an assistant message's tool-call list contains that
id (here the list `[""]`, all of whose ids form the set `{""}`), the
returned kept-id set is empty, not the set of all ids of that list. -/
theorem claim_C4_counterexample :
    findAssistantMessageWithToolCalls convC4x "" = some [⟨"", "f", ""⟩] ∧
    (analyzeToolCallStrategy convC4x).keepLastToolSequence = true ∧
    (analyzeToolCallStrategy convC4x).lastToolCallIds = [] ∧
    ([] : List String) ≠ [""] :=
  ⟨rfl, rfl, rfl, by decide⟩

/-- Claim C4, amended: on a non-empty real conversation ending in a tool
message, `keep_last_cycle` is true; if in addition the trailing id is
non-empty, the kept-id set is the set of all NON-EMPTY ids of the entire
tool-call list of the first assistant message owning the id (the whole
parallel fan-out), or `{id}` when no owner is found; an empty trailing
id yields the empty set. -/
theorem claim_C4 (real : List Message) (c t : String)
    (h : real.getLast? = some (.tool c t)) :
    (analyzeToolCallStrategy real).keepLastToolSequence = true ∧
    (t ≠ "" →
      (analyzeToolCallStrategy real).lastToolCallIds =
        (match findAssistantMessageWithToolCalls real t with
         | some calls => setOfList ((calls.map (fun tc => tc.id)).filter (fun i => i ≠ ""))
         | none => [t])) ∧
    (t = "" → (analyzeToolCallStrategy real).lastToolCallIds = []) := by
  have hstrat : analyzeToolCallStrategy real = strategyForToolId real t := by
    unfold analyzeToolCallStrategy
    rw [h]
  rw [hstrat]
  unfold strategyForToolId
  by_cases ht : t = ""
  · subst ht
    simp
  · rw [if_pos ht]
    cases hf : findAssistantMessageWithToolCalls real t with
    | some calls =>
      exact ⟨rfl, fun _ => rfl, fun h0 => absurd h0 ht⟩
    | none =>
      exact ⟨rfl, fun _ => rfl, fun h0 => absurd h0 ht⟩

/-- Claim C4, witness: a parallel two-call fan-out whose last result
arrives second; both ids are kept. -/
theorem claim_C4_witness :
    (analyzeToolCallStrategy convC4w).keepLastToolSequence = true ∧
    (analyzeToolCallStrategy convC4w).lastToolCallIds = ["a", "b"] :=
  ⟨(claim_C4 convC4w "r2" "b" rfl).1, by
    rw [(claim_C4 convC4w "r2" "b" rfl).2.1 (by decide)]
    rfl⟩

/-! ## C6: the search-result truncator -/

theorem takeWhile_append_stop {p : Char → Bool} (ds : List Char) (x : Char)
    (rest : List Char) (h : ∀ d ∈ ds, p d = true) (hx : p x = false) :
    (ds ++ x :: rest).takeWhile p = ds ∧ (ds ++ x :: rest).dropWhile p = x :: rest := by
  induction ds with
  | nil => simp [List.takeWhile, List.dropWhile, hx]
  | cons d ds ih =>
    have hd : p d = true := h d (List.mem_cons_self d ds)
    have hrest := ih (fun d' hd' => h d' (List.mem_cons_of_mem _ hd'))
    simp [List.takeWhile, List.dropWhile, hd, hrest.1, hrest.2]

theorem splitHitParts_inv (line : String) (ds content : List Char)
    (h : splitHitParts line = some (ds, content)) :
    line.data = 'L' :: (ds ++ ':' :: ' ' :: content) ∧
    (∀ d ∈ ds, Char.isDigit d = true) ∧ ds ≠ [] := by
  unfold splitHitParts at h
  cases hdata : line.data with
  | nil => rw [hdata, splitHitPartsChars] at h; exact absurd h (by simp)
  | cons c rest =>
    rw [hdata, splitHitPartsChars] at h
    by_cases hc : c = 'L'
    · rw [if_pos hc] at h
      by_cases hemp : (rest.takeWhile Char.isDigit).isEmpty
      · rw [if_pos hemp] at h; exact absurd h (by simp)
      · rw [if_neg hemp] at h
        cases hdrop : rest.dropWhile Char.isDigit with
        | nil => rw [hdrop] at h; simp [afterDigits] at h
        | cons c2 rest2 =>
          cases rest2 with
          | nil => rw [hdrop] at h; simp [afterDigits] at h
          | cons c3 content2 =>
            rw [hdrop, afterDigits] at h
            by_cases hcond : c2 = ':' ∧ c3 = ' ' ∧ ¬ content2.isEmpty
            · rw [if_pos hcond] at h
              have hinj := Option.some.inj h
              have hds : rest.takeWhile Char.isDigit = ds := congrArg Prod.fst hinj
              have hct : content2 = content := congrArg Prod.snd hinj
              refine ⟨?_, ?_, ?_⟩
              · rw [hc]
                have hrest : rest = rest.takeWhile Char.isDigit ++ rest.dropWhile Char.isDigit :=
                  (List.takeWhile_append_dropWhile _ _).symm
                rw [hrest, hds, hdrop, hcond.1, hcond.2.1, hct]
              · intro d hd
                rw [← hds] at hd
                exact List.mem_takeWhile_imp hd
              · rw [← hds]
                intro hnil
                rw [hnil] at hemp
                simp at hemp
            · rw [if_neg hcond] at h; exact absurd h (by simp)
    · rw [if_neg hc] at h; exact absurd h (by simp)

theorem hitLine_of_shape (s : String) (ds tail : List Char)
    (hdata : s.data = 'L' :: (ds ++ ':' :: tail))
    (hds : ∀ d ∈ ds, Char.isDigit d = true) (hne : ds ≠ []) :
    hitLine s = true := by
  unfold hitLine
  rw [hdata, hitLineChars, if_pos rfl]
  have hsplit := takeWhile_append_stop (p := Char.isDigit) ds ':' tail hds (by decide)
  rw [hsplit.1, hsplit.2, startsColon]
  simp [hne]

theorem hitLine_of_parts (line : String) (ds content : List Char)
    (h : splitHitParts line = some (ds, content)) :
    hitLine line = true := by
  obtain ⟨hdata, hds, hne⟩ := splitHitParts_inv line ds content h
  exact hitLine_of_shape line ds (' ' :: content) hdata hds hne

theorem hitLine_truncateLongLine (line : String) :
    hitLine (truncateLongLine line) = hitLine line := by
  unfold truncateLongLine
  cases hs : splitHitParts line with
  | none => rfl
  | some parts =>
    rcases parts with ⟨ds, content⟩
    obtain ⟨hdata, hds, hne⟩ := splitHitParts_inv line ds content hs
    by_cases hlen : content.length ≤ 1000
    · simp only [hlen, if_pos]
    · simp only [hlen, if_neg, not_false_iff]
      rw [hitLine_of_parts line ds content hs]
      have hdata2 : (String.mk ('L' :: ds ++ [':', ' ']) ++ String.mk (content.take 1000) ++
          "...").data = 'L' :: (ds ++ ':' :: (' ' :: (content.take 1000 ++ "...".data))) := by
        simp [String.data_append]
      exact hitLine_of_shape _ ds (' ' :: (content.take 1000 ++ "...".data)) hdata2 hds hne

theorem hitLine_notice (n : Nat) : hitLine (truncatedNotice n) = false := by
  unfold truncatedNotice hitLine
  have hdata : ("[... truncated " ++ toString n ++ " more results]").data =
      '[' :: ("... truncated " ++ toString n ++ " more results]").data := by
    simp [String.data_append]
  rw [hdata, hitLineChars, if_neg (by decide)]

theorem cons_getLast?_of_some {α : Type} (x a : α) (l : List α)
    (h : l.getLast? = some a) : (x :: l).getLast? = some a := by
  cases l with
  | nil => simp at h
  | cons y ys => rw [List.getLast?_cons_cons]; exact h

theorem processSearchLines_cons (total count : Nat) (l : String) (rest : List String) :
    processSearchLines total count (l :: rest) =
      if hitLine l then
        if count + 1 > 20 then [truncatedNotice (total - 20)]
        else truncateLongLine l :: processSearchLines total (count + 1) rest
      else
        if count ≤ 20 then l :: processSearchLines total count rest
        else processSearchLines total count rest := rfl

theorem processSearchLines_filter (total : Nat) (lines : List String) :
    ∀ count, count ≤ 20 →
      (processSearchLines total count lines).filter hitLine =
        (((lines.filter hitLine).take (20 - count)).map truncateLongLine) := by
  induction lines with
  | nil => intro count _; simp [processSearchLines]
  | cons l rest ih =>
    intro count hcount
    cases hl : hitLine l with
    | true =>
      rw [processSearchLines_cons, if_pos hl]
      by_cases hc : count + 1 > 20
      · have hc20 : count = 20 := by omega
        rw [if_pos hc]
        simp [hitLine_notice, hc20, hl]
      · have harr : 20 - count = (20 - (count + 1)) + 1 := by omega
        have hl' : hitLine (truncateLongLine l) = true := by
          rw [hitLine_truncateLongLine]; exact hl
        rw [if_neg hc, List.filter_cons_of_pos hl', List.filter_cons_of_pos hl,
          harr, List.take_succ_cons, List.map_cons, ih (count + 1) (by omega)]
    | false =>
      rw [processSearchLines_cons, if_neg (by simp [hl]), if_pos hcount,
        List.filter_cons_of_neg (by simp [hl]), List.filter_cons_of_neg (by simp [hl])]
      exact ih count hcount

theorem processSearchLines_getLast (total : Nat) (lines : List String) :
    ∀ count, count ≤ 20 → 20 - count < hitCount lines →
      (processSearchLines total count lines).getLast? =
        some (truncatedNotice (total - 20)) := by
  induction lines with
  | nil => intro count _ hh; simp [hitCount] at hh
  | cons l rest ih =>
    intro count hcount hh
    cases hl : hitLine l with
    | true =>
      rw [processSearchLines_cons, if_pos hl]
      by_cases hc : count + 1 > 20
      · rw [if_pos hc]
        rfl
      · rw [if_neg hc]
        have hrest : 20 - (count + 1) < hitCount rest := by
          unfold hitCount at hh ⊢
          rw [List.filter_cons_of_pos hl] at hh
          simp only [List.length_cons] at hh
          omega
        exact cons_getLast?_of_some _ _ _ (ih (count + 1) (by omega) hrest)
    | false =>
      rw [processSearchLines_cons, if_neg (by simp [hl]), if_pos hcount]
      have hrest : 20 - count < hitCount rest := by
        unfold hitCount at hh ⊢
        rw [List.filter_cons_of_neg (by simp [hl])] at hh
        exact hh
      exact cons_getLast?_of_some _ _ _ (ih count hcount hrest)

/-- Claim C6: for a decodable `search_file_content` result with a
non-empty string `output` field, the truncator re-encodes the object
with `output` replaced by the processed lines; the hit lines kept are
exactly the first (at most 20) hit lines of the output, each possibly
shortened to 1000 content characters; at most 20 hit lines remain; and
when the output held more than 20 hit lines the processed lines end in
the single synthetic `[... truncated N more results]` line with
`N = total - 20` (so no hit line follows it). -/
theorem claim_C6 (s : String) (obj : Json) (out : String)
    (hp : parseJson s = some obj)
    (ho : obj.getField "output" = some (.str out))
    (hne : out ≠ "") :
    truncateSearchResult "search_file_content" s =
      jsonStringify (obj.setField "output"
        (.str (joinWith "\n"
          (processSearchLines (hitCount (splitOnChar '\n' out)) 0 (splitOnChar '\n' out))))) ∧
    (processSearchLines (hitCount (splitOnChar '\n' out)) 0 (splitOnChar '\n' out)).filter
        hitLine =
      (((splitOnChar '\n' out).filter hitLine).take 20).map truncateLongLine ∧
    hitCount (processSearchLines (hitCount (splitOnChar '\n' out)) 0 (splitOnChar '\n' out)) ≤
      20 ∧
    (hitCount (splitOnChar '\n' out) > 20 →
      (processSearchLines (hitCount (splitOnChar '\n' out)) 0
          (splitOnChar '\n' out)).getLast? =
        some (truncatedNotice (hitCount (splitOnChar '\n' out) - 20))) := by
  have hfilter := processSearchLines_filter (hitCount (splitOnChar '\n' out))
    (splitOnChar '\n' out) 0 (by omega)
  refine ⟨?_, by simpa using hfilter, ?_, ?_⟩
  · unfold truncateSearchResult
    rw [if_neg (by simp), hp]
    simp only [ho, if_neg hne]
  · have h3 : ((processSearchLines (hitCount (splitOnChar '\n' out)) 0
        (splitOnChar '\n' out)).filter hitLine).length ≤ 20 := by
      rw [hfilter]
      simp only [List.length_map, Nat.sub_zero]
      exact List.length_take_le _ _
    exact h3
  · intro hgt
    exact processSearchLines_getLast _ _ 0 (by omega) (by omega)

/-- Claim C6, witness: the theorem applied to a concrete two-hit search
result. -/
theorem claim_C6_witness :
    truncateSearchResult "search_file_content" sC6 =
      jsonStringify (objC6.setField "output"
        (.str (joinWith "\n"
          (processSearchLines (hitCount (splitOnChar '\n' "L1: a\nL2: b")) 0
            (splitOnChar '\n' "L1: a\nL2: b"))))) ∧
    (processSearchLines (hitCount (splitOnChar '\n' "L1: a\nL2: b")) 0
        (splitOnChar '\n' "L1: a\nL2: b")).filter hitLine =
      (((splitOnChar '\n' "L1: a\nL2: b").filter hitLine).take 20).map truncateLongLine ∧
    hitCount (processSearchLines (hitCount (splitOnChar '\n' "L1: a\nL2: b")) 0
        (splitOnChar '\n' "L1: a\nL2: b")) ≤ 20 ∧
    (hitCount (splitOnChar '\n' "L1: a\nL2: b") > 20 →
      (processSearchLines (hitCount (splitOnChar '\n' "L1: a\nL2: b")) 0
          (splitOnChar '\n' "L1: a\nL2: b")).getLast? =
        some (truncatedNotice (hitCount (splitOnChar '\n' "L1: a\nL2: b") - 20))) :=
  claim_C6 sC6 objC6 "L1: a\nL2: b" rfl rfl (by decide)

/-! ## Collapser lemmas -/

theorem collapseGo_nil (acc : Option RunAcc) :
    collapseGo acc [] = (match acc with | none => [] | some a => consolidateRun a) := rfl

theorem collapseGo_cons (acc : Option RunAcc) (m : Message) (rest : List Message) :
    collapseGo acc (m :: rest) =
      if isAssistantRole m then
        collapseGo (some (absorbAssistant (acc.getD ([], [])) m)) rest
      else
        (match acc with | none => [] | some a => consolidateRun a) ++
          (m :: collapseGo none rest) := rfl

theorem validAcc_consolidate (seen : List String) (a : RunAcc) (rest : List Message) :
    validAcc seen (consolidateRun a ++ rest) =
      validAcc (seen ++ a.2.map (fun tc => tc.id)) rest := by
  unfold consolidateRun
  by_cases h : a.1 = [] ∧ a.2 = []
  · rw [if_pos h]
    simp [h.2]
  · rw [if_neg h]
    by_cases h2 : a.2 = []
    · rw [if_pos h2]
      simp [validAcc, h2]
    · rw [if_neg h2]
      simp [validAcc]

theorem validAcc_append_accIds (seen : List String) (acc : Option RunAcc)
    (rest : List Message) :
    validAcc seen
      ((match acc with | none => [] | some a => consolidateRun a) ++ rest) =
      validAcc (seen ++ accIds acc) rest := by
  cases acc with
  | none => simp [accIds]
  | some a => rw [validAcc_consolidate]; rfl

theorem absorb_snd (a : RunAcc) (m : Message) :
    (absorbAssistant a m).2 = a.2 ++ callsOf m := rfl

theorem collapseGo_validAcc (rest : List Message) :
    ∀ (seen : List String) (acc : Option RunAcc),
      validAcc (seen ++ accIds acc) rest = true →
      validAcc seen (collapseGo acc rest) = true := by
  induction rest with
  | nil =>
    intro seen acc h
    rw [collapseGo_nil]
    have := validAcc_append_accIds seen acc []
    simp only [List.append_nil] at this
    rw [this]
    exact h
  | cons m rest ih =>
    intro seen acc h
    rw [collapseGo_cons]
    cases hrole : isAssistantRole m with
    | true =>
      rw [if_pos rfl]
      apply ih
      have hacc : accIds (some (absorbAssistant (acc.getD ([], [])) m)) =
          accIds acc ++ callIdsOf m := by
        cases acc with
        | none => simp [accIds, absorb_snd, callIdsOf]
        | some a => simp [accIds, absorb_snd, callIdsOf]
      rw [hacc, ← List.append_assoc]
      cases m with
      | assistant content f =>
        cases f with
        | present calls =>
          simp only [validAcc] at h
          exact h
        | absent =>
          simp only [validAcc] at h
          simpa [callIdsOf, callsOf] using h
        | nullish =>
          simp only [validAcc] at h
          simpa [callIdsOf, callsOf] using h
      | system c => simp [isAssistantRole] at hrole
      | user c => simp [isAssistantRole] at hrole
      | tool c t => simp [isAssistantRole] at hrole
    | false =>
      rw [if_neg Bool.false_ne_true, validAcc_append_accIds]
      cases m with
      | tool c t =>
        simp only [validAcc] at h ⊢
        have h' := h
        simp only [Bool.and_eq_true] at h'
        rcases h' with ⟨h1, h2⟩
        rw [h1, Bool.true_and]
        exact ih (seen ++ accIds acc) none (by simpa [accIds] using h2)
      | assistant content f => simp [isAssistantRole] at hrole
      | system c =>
        simp only [validAcc] at h ⊢
        exact ih (seen ++ accIds acc) none (by simpa [accIds] using h)
      | user c =>
        simp only [validAcc] at h ⊢
        exact ih (seen ++ accIds acc) none (by simpa [accIds] using h)

theorem consolidate_filter (P : Message → Bool)
    (hP : ∀ c f, P (.assistant c f) = false) (a : RunAcc) :
    (consolidateRun a).filter P = [] := by
  unfold consolidateRun
  by_cases h : a.1 = [] ∧ a.2 = []
  · rw [if_pos h]; rfl
  · rw [if_neg h]
    simp [hP]

theorem collapseGo_filter (P : Message → Bool)
    (hP : ∀ c f, P (.assistant c f) = false) (rest : List Message) :
    ∀ acc, (collapseGo acc rest).filter P = rest.filter P := by
  induction rest with
  | nil =>
    intro acc
    rw [collapseGo_nil]
    cases acc with
    | none => rfl
    | some a => simpa using consolidate_filter P hP a
  | cons m rest ih =>
    intro acc
    rw [collapseGo_cons]
    cases hrole : isAssistantRole m with
    | true =>
      rw [if_pos rfl, ih]
      cases m with
      | assistant content f =>
        rw [List.filter_cons_of_neg (by simp [hP])]
      | system c => simp [isAssistantRole] at hrole
      | user c => simp [isAssistantRole] at hrole
      | tool c t => simp [isAssistantRole] at hrole
    | false =>
      rw [if_neg Bool.false_ne_true, List.filter_append]
      have hflush : ((match acc with
          | none => []
          | some a => consolidateRun a) : List Message).filter P = [] := by
        cases acc with
        | none => rfl
        | some a => exact consolidate_filter P hP a
      rw [hflush]
      simp only [List.nil_append, List.filter_cons]
      rw [ih none]

theorem collapseGo_getLast (rest : List Message) :
    ∀ (acc : Option RunAcc) (m : Message), isAssistantRole m = false →
      rest.getLast? = some m → (collapseGo acc rest).getLast? = some m := by
  induction rest with
  | nil => intro acc m _ h; simp at h
  | cons x rest ih =>
    intro acc m hm hlast
    rw [collapseGo_cons]
    cases hrest : rest with
    | nil =>
      subst hrest
      have hx : x = m := by
        simpa using hlast
      subst hx
      rw [if_neg (by rw [hm]; exact Bool.false_ne_true), collapseGo_nil]
      simp [List.getLast?_concat]
    | cons y rest2 =>
      have hlast2 : rest.getLast? = some m := by
        rw [hrest] at hlast ⊢
        rw [List.getLast?_cons_cons] at hlast
        exact hlast
      rw [← hrest]
      cases hrole : isAssistantRole x with
      | true =>
        rw [if_pos rfl]
        exact ih _ m hm hlast2
      | false =>
        rw [if_neg Bool.false_ne_true]
        have htail := ih none m hm hlast2
        have hne : collapseGo none rest ≠ [] := by
          intro h0
          rw [h0] at htail
          simp at htail
        rw [List.getLast?_append, cons_getLast?_of_some _ _ _ htail]
        rfl

theorem asstIds_cons (m : Message) (l : List Message) :
    asstIds (m :: l) = callIdsOf m ++ asstIds l := rfl

theorem asstIds_append (l1 l2 : List Message) :
    asstIds (l1 ++ l2) = asstIds l1 ++ asstIds l2 := by
  induction l1 with
  | nil => rfl
  | cons m l ih => simp [asstIds_cons, ih]

theorem asstIds_mem (t : String) (l : List Message) :
    t ∈ asstIds l ↔ ∃ m ∈ l, t ∈ callIdsOf m := by
  induction l with
  | nil => simp [asstIds]
  | cons m l ih =>
    rw [asstIds_cons]
    simp only [List.mem_append, ih, List.mem_cons]
    constructor
    · rintro (h | ⟨m', hm', ht⟩)
      · exact ⟨m, Or.inl rfl, h⟩
      · exact ⟨m', Or.inr hm', ht⟩
    · rintro ⟨m', hm' | hm', ht⟩
      · exact Or.inl (hm' ▸ ht)
      · exact Or.inr ⟨m', hm', ht⟩

theorem consolidate_callIds (a : RunAcc) :
    asstIds (consolidateRun a) = a.2.map (fun tc => tc.id) := by
  unfold consolidateRun
  by_cases h : a.1 = [] ∧ a.2 = []
  · rw [if_pos h]
    simp [asstIds, h.2]
  · rw [if_neg h]
    by_cases h2 : a.2 = []
    · rw [if_pos h2]
      simp [asstIds, asstIds_cons, callIdsOf, callsOf, h2]
    · rw [if_neg h2]
      simp [asstIds, asstIds_cons, callIdsOf, callsOf]

theorem collapseGo_asstIds (rest : List Message) :
    ∀ acc, asstIds (collapseGo acc rest) = accIds acc ++ asstIds rest := by
  induction rest with
  | nil =>
    intro acc
    rw [collapseGo_nil]
    cases acc with
    | none => rfl
    | some a =>
      rw [consolidate_callIds]
      simp [accIds, asstIds]
  | cons m rest ih =>
    intro acc
    rw [collapseGo_cons]
    cases hrole : isAssistantRole m with
    | true =>
      rw [if_pos rfl, ih]
      have hacc : accIds (some (absorbAssistant (acc.getD ([], [])) m)) =
          accIds acc ++ callIdsOf m := by
        cases acc <;> simp [accIds, absorb_snd, callIdsOf]
      rw [hacc, asstIds_cons, List.append_assoc]
    | false =>
      rw [if_neg Bool.false_ne_true, asstIds_append]
      have hflush : asstIds ((match acc with
          | none => []
          | some a => consolidateRun a : List Message)) = accIds acc := by
        cases acc with
        | none => rfl
        | some a =>
          rw [consolidate_callIds]
          rfl
      rw [hflush, asstIds_cons, ih none]
      simp [accIds, asstIds_cons]

/-! ## Rebuild-loop lemmas -/

theorem rebuildConversation_cons (strat : Strategy) (moved : List String)
    (real : List Message) (m : Message) (rest : List Message) :
    rebuildConversation strat moved real (m :: rest) =
      rebuildMessage strat moved real m rest.isEmpty ++
        rebuildConversation strat moved real rest := rfl

theorem rebuildMessage_no_system (strat : Strategy) (moved : List String)
    (real : List Message) (m : Message) (il : Bool) :
    (rebuildMessage strat moved real m il).filter isSystemRole = [] := by
  cases m with
  | tool c t => simp only [rebuildMessage]; split_ifs <;> rfl
  | assistant content f =>
    cases f with
    | present calls =>
      cases content with
      | none => simp only [rebuildMessage]; split_ifs <;> rfl
      | some c => simp only [rebuildMessage]; split_ifs <;> rfl
    | nullish =>
      cases content with
      | none => rfl
      | some c => simp only [rebuildMessage]; split_ifs <;> rfl
    | absent => rfl
  | user c => simp only [rebuildMessage]; split_ifs <;> rfl
  | system c => rfl

theorem rebuild_no_system (strat : Strategy) (moved : List String)
    (real : List Message) : ∀ rest,
    (rebuildConversation strat moved real rest).filter isSystemRole = [] := by
  intro rest
  induction rest with
  | nil => rfl
  | cons m rest ih =>
    rw [rebuildConversation_cons, List.filter_append, rebuildMessage_no_system, ih]
    rfl

theorem rebuildMessage_filter_other (strat : Strategy) (moved : List String)
    (real : List Message) (m : Message) (il : Bool) :
    (rebuildMessage strat moved real m il).filter isOtherUser =
      [m].filter isOtherUser := by
  cases m with
  | tool c t => simp only [rebuildMessage]; split_ifs <;> rfl
  | assistant content f =>
    cases f with
    | present calls =>
      cases content with
      | none => simp only [rebuildMessage]; split_ifs <;> rfl
      | some c => simp only [rebuildMessage]; split_ifs <;> rfl
    | nullish =>
      cases content with
      | none => rfl
      | some c => simp only [rebuildMessage]; split_ifs <;> rfl
    | absent => rfl
  | user c =>
    simp only [rebuildMessage]
    by_cases hpc : jsTrim c = "Please continue."
    · rw [if_pos hpc]
      have hfo : isOtherUser (Message.user c) = false := by
        simp [isOtherUser, hpc]
      split_ifs <;> simp [hfo]
    · rw [if_neg hpc]
  | system c =>
    simp only [rebuildMessage]
    rfl

theorem rebuild_filter_other (strat : Strategy) (moved : List String)
    (real : List Message) : ∀ rest,
    (rebuildConversation strat moved real rest).filter isOtherUser =
      rest.filter isOtherUser := by
  intro rest
  induction rest with
  | nil => rfl
  | cons m rest ih =>
    rw [rebuildConversation_cons, List.filter_append, rebuildMessage_filter_other, ih]
    cases hm : isOtherUser m with
    | true => rw [List.filter_cons_of_pos hm, List.filter_cons_of_pos hm]; rfl
    | false =>
      rw [List.filter_cons_of_neg (by simp [hm]), List.filter_cons_of_neg (by simp [hm])]
      rfl

theorem rebuildMessage_filter_PC_notlast (strat : Strategy) (moved : List String)
    (real : List Message) (m : Message) :
    (rebuildMessage strat moved real m false).filter isPCUser = [] := by
  cases m with
  | tool c t => simp only [rebuildMessage]; split_ifs <;> rfl
  | assistant content f =>
    cases f with
    | present calls =>
      cases content with
      | none => simp only [rebuildMessage]; split_ifs <;> rfl
      | some c => simp only [rebuildMessage]; split_ifs <;> rfl
    | nullish =>
      cases content with
      | none => rfl
      | some c => simp only [rebuildMessage]; split_ifs <;> rfl
    | absent => rfl
  | user c =>
    simp only [rebuildMessage]
    by_cases hpc : jsTrim c = "Please continue."
    · rw [if_pos hpc, if_neg (by simp)]
      rfl
    · rw [if_neg hpc]
      have hfo : isPCUser (Message.user c) = false := by
        simp [isPCUser, hpc]
      simp [hfo]
  | system c => rfl

theorem rebuild_filter_PC (strat : Strategy) (moved : List String)
    (real : List Message) : ∀ rest,
    (rebuildConversation strat moved real rest).filter isPCUser =
      pcTail strat rest := by
  intro rest
  induction rest with
  | nil => rfl
  | cons m rest ih =>
    rw [rebuildConversation_cons, List.filter_append, ih]
    cases hrest : rest with
    | nil =>
      subst hrest
      simp only [List.isEmpty_nil]
      have hpcnil : pcTail strat [] = [] := rfl
      rw [hpcnil, List.append_nil]
      cases m with
      | tool c t =>
        have hpt : pcTail strat [Message.tool c t] = [] := rfl
        rw [hpt]
        simp only [rebuildMessage]
        split_ifs <;> rfl
      | assistant content f =>
        have hpt : pcTail strat [Message.assistant content f] = [] := rfl
        rw [hpt]
        cases f with
        | present calls =>
          cases content with
          | none => simp only [rebuildMessage]; split_ifs <;> rfl
          | some c => simp only [rebuildMessage]; split_ifs <;> rfl
        | nullish =>
          cases content with
          | none => rfl
          | some c => simp only [rebuildMessage]; split_ifs <;> rfl
        | absent => rfl
      | system c => rfl
      | user c =>
        simp only [rebuildMessage]
        have hpt : pcTail strat [Message.user c] =
            (if jsTrim c = "Please continue." ∧ strat.keepLastToolSequence
             then [Message.user c] else []) := rfl
        rw [hpt]
        by_cases hpc : jsTrim c = "Please continue."
        · rw [if_pos hpc]
          have hto : isPCUser (Message.user c) = true := by
            simp [isPCUser, hpc]
          by_cases hkeep : strat.keepLastToolSequence
          · rw [if_pos (by simp [hkeep]), if_pos ⟨hpc, hkeep⟩]
            simp [hto]
          · rw [if_neg (by simp [hkeep]), if_neg (by simp [hkeep])]
            rfl
        · rw [if_neg hpc, if_neg (by simp [hpc])]
          have hfo : isPCUser (Message.user c) = false := by
            simp [isPCUser, hpc]
          simp [hfo]
    | cons y rest2 =>
      have h1 : (rebuildMessage strat moved real m (y :: rest2).isEmpty).filter isPCUser =
          [] :=
        rebuildMessage_filter_PC_notlast strat moved real m
      rw [h1]
      have h2 : pcTail strat (m :: y :: rest2) = pcTail strat (y :: rest2) := by
        unfold pcTail
        rw [List.getLast?_cons_cons]
      rw [h2]
      rfl

/-! ## The rebuilt list as produced by the entry point -/

theorem reconfigure_eq (w : World) (msgs : List Message) :
    reconfigureFinalMessages w msgs =
      collapseGo none
        (Message.system (buildContextStuffedSystemPrompt w
            (deconstructMessages w msgs).toolCallPairs
            (deconstructMessages w msgs).cannedUserContext
            (deconstructMessages w msgs).virtualFileSystem) ::
          rebuildConversation
            (analyzeToolCallStrategy (deconstructMessages w msgs).realConversation)
            (movedIds (deconstructMessages w msgs))
            (deconstructMessages w msgs).realConversation
            (deconstructMessages w msgs).realConversation) := rfl

theorem collapseGo_system_cons (c : String) (rest : List Message) :
    collapseGo none (Message.system c :: rest) =
      Message.system c :: collapseGo none rest := by
  rw [collapseGo_cons, if_neg (by simp [isAssistantRole])]
  rfl

/-! ## C2: a single system message at index 0 -/

/-- Claim C2: for every input and world, the refocused list has the
regenerated system message at index 0 and contains exactly one message
with role system. -/
theorem claim_C2 (w : World) (msgs : List Message) :
    (reconfigureFinalMessages w msgs).head? =
      some (.system (buildContextStuffedSystemPrompt w
        (deconstructMessages w msgs).toolCallPairs
        (deconstructMessages w msgs).cannedUserContext
        (deconstructMessages w msgs).virtualFileSystem)) ∧
    ((reconfigureFinalMessages w msgs).filter isSystemRole).length = 1 := by
  rw [reconfigure_eq, collapseGo_system_cons]
  constructor
  · rfl
  · rw [List.filter_cons_of_pos rfl,
      collapseGo_filter isSystemRole (fun _ _ => rfl) _ none, rebuild_no_system]
    rfl

/-! ## C7: handling of user messages -/

/-- Claim C7: a `Please continue.` user message survives into the output
exactly when it is the last element of the real conversation and the
last tool cycle is kept (the `pcTail` of the real conversation); every
other user message of the real conversation passes through unchanged, in
order. -/
theorem claim_C7 (w : World) (msgs : List Message) :
    (reconfigureFinalMessages w msgs).filter isPCUser =
      pcTail (analyzeToolCallStrategy (deconstructMessages w msgs).realConversation)
        (deconstructMessages w msgs).realConversation ∧
    (reconfigureFinalMessages w msgs).filter isOtherUser =
      (deconstructMessages w msgs).realConversation.filter isOtherUser := by
  rw [reconfigure_eq, collapseGo_system_cons]
  constructor
  · rw [List.filter_cons_of_neg (by simp [isPCUser]),
      collapseGo_filter isPCUser (fun _ _ => rfl) _ none, rebuild_filter_PC]
  · rw [List.filter_cons_of_neg (by simp [isOtherUser]),
      collapseGo_filter isOtherUser (fun _ _ => rfl) _ none, rebuild_filter_other]

/-! ## C1: preservation of tool linkage -/

theorem rebuild_validAcc (strat : Strategy) (moved : List String) (real : List Message) :
    ∀ (rest : List Message) (seenIn seenOut : List String),
      (∀ t, t ∈ seenIn → t ≠ "" → moved.contains t = false → t ∈ seenOut) →
      validAcc seenIn rest = true →
      validAcc seenOut (rebuildConversation strat moved real rest) = true := by
  intro rest
  induction rest with
  | nil => intro _ _ _ _; rfl
  | cons m rest ih =>
    intro seenIn seenOut hinv h
    rw [rebuildConversation_cons]
    cases m with
    | tool c t =>
      simp only [validAcc, Bool.and_eq_true] at h
      rcases h with ⟨h1, h2⟩
      simp only [rebuildMessage]
      by_cases hkeep : t ≠ "" ∧ ¬ moved.contains t = true
      · rw [if_pos hkeep]
        have ht : t ∈ seenOut :=
          hinv t (by simpa using h1) hkeep.1 (by simpa using hkeep.2)
        show validAcc seenOut
          (Message.tool (truncateSearchResult (ownerName real t) c) t ::
            rebuildConversation strat moved real rest) = true
        simp only [validAcc, Bool.and_eq_true]
        exact ⟨by simpa using ht, ih seenIn seenOut hinv h2⟩
      · rw [if_neg hkeep]
        simpa using ih seenIn seenOut hinv h2
    | assistant content f =>
      cases f with
      | present calls =>
        simp only [validAcc] at h
        simp only [rebuildMessage]
        by_cases hk : calls.filter
            (fun tc => tc.id ≠ "" ∧ ¬ moved.contains tc.id = true) ≠ []
        · rw [if_pos hk]
          show validAcc seenOut
            (Message.assistant content (.present (calls.filter
              (fun tc => tc.id ≠ "" ∧ ¬ moved.contains tc.id = true))) ::
              rebuildConversation strat moved real rest) = true
          simp only [validAcc]
          apply ih (seenIn ++ calls.map (fun tc => tc.id))
          · intro t htm htne htnm
            rcases List.mem_append.mp htm with hin | hcalls
            · exact List.mem_append_left _ (hinv t hin htne htnm)
            · rcases List.mem_map.mp hcalls with ⟨tc, htc, hid⟩
              apply List.mem_append_right
              apply List.mem_map.mpr
              refine ⟨tc, ?_, hid⟩
              apply List.mem_filter.mpr
              refine ⟨htc, ?_⟩
              simp only [hid, decide_eq_true_eq]
              exact ⟨htne, by simpa using htnm⟩
          · exact h
        · rw [if_neg hk]
          have hinv' : ∀ t, t ∈ seenIn ++ calls.map (fun tc => tc.id) → t ≠ "" →
              moved.contains t = false → t ∈ seenOut := by
            intro t htm htne htnm
            rcases List.mem_append.mp htm with hin | hcalls
            · exact hinv t hin htne htnm
            · exfalso
              rcases List.mem_map.mp hcalls with ⟨tc, htc, hid⟩
              apply hk
              have : tc ∈ calls.filter
                  (fun tc => tc.id ≠ "" ∧ ¬ moved.contains tc.id = true) := by
                apply List.mem_filter.mpr
                refine ⟨htc, ?_⟩
                simp only [hid, decide_eq_true_eq]
                exact ⟨htne, by simpa using htnm⟩
              intro hnil
              rw [hnil] at this
              simp at this
          cases content with
          | some c =>
            show validAcc seenOut
              ((if jsTrim c ≠ "" then [Message.assistant (some c) ToolCallsField.absent]
                else ([] : List Message)) ++
                rebuildConversation strat moved real rest) = true
            by_cases hct : jsTrim c ≠ ""
            · rw [if_pos hct]
              show validAcc seenOut
                (Message.assistant (some c) .absent ::
                  rebuildConversation strat moved real rest) = true
              simp only [validAcc]
              exact ih _ seenOut hinv' h
            · rw [if_neg hct]
              simpa using ih _ seenOut hinv' h
          | none =>
            simpa using ih _ seenOut hinv' h
      | nullish =>
        simp only [validAcc] at h
        simp only [rebuildMessage]
        cases content with
        | some c =>
          show validAcc seenOut
            ((if jsTrim c ≠ "" then [Message.assistant (some c) ToolCallsField.nullish]
              else ([] : List Message)) ++
              rebuildConversation strat moved real rest) = true
          by_cases hct : jsTrim c ≠ ""
          · rw [if_pos hct]
            show validAcc seenOut
              (Message.assistant (some c) .nullish ::
                rebuildConversation strat moved real rest) = true
            simp only [validAcc]
            exact ih seenIn seenOut hinv h
          · rw [if_neg hct]
            simpa using ih seenIn seenOut hinv h
        | none =>
          simpa using ih seenIn seenOut hinv h
      | absent =>
        simp only [validAcc] at h
        simp only [rebuildMessage]
        show validAcc seenOut
          (Message.assistant content .absent ::
            rebuildConversation strat moved real rest) = true
        simp only [validAcc]
        exact ih seenIn seenOut hinv h
    | user c =>
      simp only [validAcc] at h
      simp only [rebuildMessage]
      by_cases hpc : jsTrim c = "Please continue."
      · rw [if_pos hpc]
        split_ifs
        · show validAcc seenOut
            (Message.user c :: rebuildConversation strat moved real rest) = true
          simp only [validAcc]
          exact ih seenIn seenOut hinv h
        · simpa using ih seenIn seenOut hinv h
      · rw [if_neg hpc]
        show validAcc seenOut
          (Message.user c :: rebuildConversation strat moved real rest) = true
        simp only [validAcc]
        exact ih seenIn seenOut hinv h
    | system c =>
      simp only [validAcc] at h
      simp only [rebuildMessage]
      simpa using ih seenIn seenOut hinv h

/-- Claim C1, counterexample to the claim as stated: the four-message
input `msgsC1x` is tool-link valid (its tool result is owned by the
canned assistant acknowledgement at index 2), but the refocused output
keeps the tool message while dropping the canned assistant, so the
output violates tool linkage. -/
theorem claim_C1_counterexample :
    toolLinkValid msgsC1x = true ∧
    toolLinkValid (reconfigureFinalMessages wEmpty msgsC1x) = false := by
  constructor
  · decide
  · decide

/-- Claim C1, amended: when every tool message of the real conversation
(the input past the canned three-message preamble) references a tool
call announced by an earlier assistant message WITHIN the real
conversation, the refocused output satisfies tool linkage: every tool
message in it is owned by an earlier assistant message of the output. -/
theorem claim_C1 (w : World) (msgs : List Message)
    (h : validAcc [] (deconstructMessages w msgs).realConversation = true) :
    toolLinkValid (reconfigureFinalMessages w msgs) = true := by
  rw [reconfigure_eq]
  unfold toolLinkValid
  apply collapseGo_validAcc
  show validAcc ([] ++ accIds none)
    (Message.system _ :: rebuildConversation _ _ _ _) = true
  simp only [accIds, List.append_nil, validAcc]
  exact rebuild_validAcc _ _ _ _ [] [] (by intro t ht; simp at ht) h

/-- Claim C1, witness: a complete owned tool cycle in the real
conversation; the hypothesis and the conclusion evaluate on the concrete
input. -/
theorem claim_C1_witness :
    validAcc [] (deconstructMessages wEmpty msgsC1w).realConversation = true ∧
    toolLinkValid (reconfigureFinalMessages wEmpty msgsC1w) = true :=
  ⟨by decide, claim_C1 wEmpty msgsC1w (by decide)⟩

/-! ## Strategy and moved-set lemmas -/

theorem analyze_eq_strategyFor (real : List Message) (c t : String)
    (h : real.getLast? = some (.tool c t)) :
    analyzeToolCallStrategy real = strategyForToolId real t := by
  unfold analyzeToolCallStrategy
  rw [h]

theorem strategyForToolId_keep (conv : List Message) (t : String) :
    (strategyForToolId conv t).keepLastToolSequence = true := by
  unfold strategyForToolId
  split_ifs
  · cases findAssistantMessageWithToolCalls conv t <;> rfl
  · rfl

theorem findAssistant_any (conv : List Message) (t : String) :
    ∀ calls, findAssistantMessageWithToolCalls conv t = some calls →
      calls.any (fun tc => tc.id == t) = true := by
  induction conv with
  | nil => intro calls h; simp [findAssistantMessageWithToolCalls] at h
  | cons m rest ih =>
    intro calls h
    cases m with
    | assistant content f =>
      cases f with
      | present cs =>
        simp only [findAssistantMessageWithToolCalls] at h
        by_cases ha : cs.any (fun tc => tc.id == t) = true
        · rw [if_pos ha] at h
          have : cs = calls := Option.some.inj h
          rw [← this]
          exact ha
        · rw [if_neg ha] at h
          exact ih calls h
      | absent =>
        simp only [findAssistantMessageWithToolCalls] at h
        exact ih calls h
      | nullish =>
        simp only [findAssistantMessageWithToolCalls] at h
        exact ih calls h
    | system c =>
      simp only [findAssistantMessageWithToolCalls] at h
      exact ih calls h
    | user c =>
      simp only [findAssistantMessageWithToolCalls] at h
      exact ih calls h
    | tool c2 t2 =>
      simp only [findAssistantMessageWithToolCalls] at h
      exact ih calls h

theorem strategyForToolId_mem (conv : List Message) (t : String) (ht : t ≠ "") :
    t ∈ (strategyForToolId conv t).lastToolCallIds := by
  unfold strategyForToolId
  rw [if_pos ht]
  cases hf : findAssistantMessageWithToolCalls conv t with
  | none => simp
  | some calls =>
    have hany := findAssistant_any conv t calls hf
    rcases List.any_eq_true.mp hany with ⟨tc, htc, hbeq⟩
    have hid : tc.id = t := by simpa using hbeq
    show t ∈ setOfList _
    rw [setOfList_mem]
    apply List.mem_filter.mpr
    exact ⟨List.mem_map.mpr ⟨tc, htc, hid⟩, by simp [ht]⟩

theorem alistSet_forall {α : Type} (P : String × α → Prop) (l : List (String × α))
    (key : String) (v : α) (hl : ∀ kv ∈ l, P kv) (hv : P (key, v)) :
    ∀ kv ∈ alistSet l key v, P kv := by
  intro kv hkv
  unfold alistSet at hkv
  split at hkv
  · rcases List.mem_map.mp hkv with ⟨p, hp, heq⟩
    by_cases hpk : p.1 == key
    · rw [if_pos hpk] at heq
      have hp1 : p.1 = key := by simpa using hpk
      rw [← heq, hp1]
      exact hv
    · rw [if_neg hpk] at heq
      rw [← heq]
      exact hl p hp
  · rcases List.mem_append.mp hkv with h | h
    · exact hl _ h
    · have : kv = (key, v) := by simpa using h
      rw [this]
      exact hv

theorem collectToolCallMap_inv (msgs : List Message) :
    ∀ kv ∈ collectToolCallMap msgs, kv.2.id = kv.1 := by
  unfold collectToolCallMap
  have hinner : ∀ (calls : List ToolCall) (acc : List (String × ToolCall)),
      (∀ kv ∈ acc, kv.2.id = kv.1) →
      ∀ kv ∈ calls.foldl
        (fun acc2 tc => if tc.id ≠ "" then alistSet acc2 tc.id tc else acc2) acc,
        kv.2.id = kv.1 := by
    intro calls
    induction calls with
    | nil => intro acc hacc kv hkv; exact hacc kv hkv
    | cons tc rest ih =>
      intro acc hacc kv hkv
      simp only [List.foldl_cons] at hkv
      by_cases hid : tc.id ≠ ""
      · rw [if_pos hid] at hkv
        exact ih _ (alistSet_forall _ acc tc.id tc hacc rfl) kv hkv
      · rw [if_neg hid] at hkv
        exact ih _ hacc kv hkv
  have houter : ∀ (ms : List Message) (acc : List (String × ToolCall)),
      (∀ kv ∈ acc, kv.2.id = kv.1) →
      ∀ kv ∈ ms.foldl
        (fun acc m => (callsOf m).foldl
          (fun acc2 tc => if tc.id ≠ "" then alistSet acc2 tc.id tc else acc2) acc) acc,
        kv.2.id = kv.1 := by
    intro ms
    induction ms with
    | nil => intro acc hacc kv hkv; exact hacc kv hkv
    | cons m rest ih =>
      intro acc hacc kv hkv
      simp only [List.foldl_cons] at hkv
      exact ih _ (hinner (callsOf m) acc hacc) kv hkv
  exact houter msgs [] (by intro kv hkv; simp at hkv)

theorem alistGet_id (msgs : List Message) (k : String) (v : ToolCall)
    (h : alistGet (collectToolCallMap msgs) k = some v) : v.id = k := by
  unfold alistGet at h
  cases hf : (collectToolCallMap msgs).find? (fun p => p.1 == k) with
  | none => rw [hf] at h; simp at h
  | some p =>
    rw [hf] at h
    have hp : p.2 = v := by simpa using h
    have hmem := List.mem_of_find?_eq_some hf
    have hkey : p.1 = k := by
      have := List.find?_some hf
      simpa using this
    have := collectToolCallMap_inv msgs p hmem
    rw [← hp, this, hkey]

theorem movable_not_kept (msgs : List Message) (strat : Strategy)
    (hkeep : strat.keepLastToolSequence = true) :
    ∀ pr ∈ computeMovablePairs msgs strat,
      strat.lastToolCallIds.contains pr.1.id = false := by
  intro pr hpr
  unfold computeMovablePairs at hpr
  rcases List.mem_filterMap.mp hpr with ⟨m, _, hf⟩
  cases m with
  | tool content tid =>
    simp only at hf
    by_cases htid : tid ≠ ""
    · rw [if_pos htid] at hf
      cases hget : alistGet (collectToolCallMap msgs) tid with
      | none =>
        rw [hget] at hf
        have hf' : (none : Option (ToolCall × String)) = some pr := hf
        simp at hf'
      | some tc =>
        rw [hget] at hf
        have hf' : (if strat.keepLastToolSequence = true ∧
            strat.lastToolCallIds.contains tid = true then none
            else some (tc, content)) = some pr := hf
        by_cases hcond : strat.keepLastToolSequence = true ∧
            strat.lastToolCallIds.contains tid = true
        · rw [if_pos hcond] at hf'
          simp at hf'
        · rw [if_neg hcond] at hf'
          have hpr1 : pr.1 = tc := by
            have : (tc, content) = pr := by simpa using hf'
            rw [← this]
          rw [hpr1, alistGet_id msgs tid tc hget]
          have hnc : strat.lastToolCallIds.contains tid ≠ true :=
            fun hv => hcond ⟨hkeep, hv⟩
          cases hv : strat.lastToolCallIds.contains tid with
          | false => rfl
          | true => exact absurd hv hnc
    · rw [if_neg htid] at hf
      simp at hf
  | system c => simp at hf
  | user c => simp at hf
  | assistant c f => simp at hf

theorem deconstruct_real (w : World) (msgs : List Message) :
    (deconstructMessages w msgs).realConversation =
      if msgs.length < 3 then msgs else msgs.drop 3 := by
  unfold deconstructMessages
  by_cases h : msgs.length < 3 <;> simp [h]

theorem deconstruct_pairs (w : World) (msgs : List Message) :
    (deconstructMessages w msgs).toolCallPairs =
      filterToolCallsForVirtualFileSystem (movablePairsOf msgs) := by
  unfold deconstructMessages movablePairsOf
  by_cases h : msgs.length < 3
  · simp [h]
    rfl
  · simp [h]

theorem deconstruct_fileOps (w : World) (msgs : List Message) :
    (deconstructMessages w msgs).fileOperationToolCallIds =
      computeFileOperationToolCallIds (movablePairsOf msgs) := by
  unfold deconstructMessages movablePairsOf
  by_cases h : msgs.length < 3
  · simp [h]
    rfl
  · simp [h]

theorem deconstruct_vfs (w : World) (msgs : List Message) :
    (deconstructMessages w msgs).virtualFileSystem =
      buildVirtualFileSystem w (movablePairsOf msgs) := by
  unfold deconstructMessages movablePairsOf
  by_cases h : msgs.length < 3
  · simp [h]
    rfl
  · simp [h]

theorem kept_not_moved (w : World) (msgs : List Message) (t : String)
    (hkeep : (analyzeToolCallStrategy
      (deconstructMessages w msgs).realConversation).keepLastToolSequence = true)
    (hmem : t ∈ (analyzeToolCallStrategy
      (deconstructMessages w msgs).realConversation).lastToolCallIds) :
    (movedIds (deconstructMessages w msgs)).contains t = false := by
  by_cases hlen : msgs.length < 3
  · have hshort : deconstructMessages w msgs = ⟨"", "", "", msgs, [], [], []⟩ := by
      unfold deconstructMessages
      rw [if_pos hlen]
    rw [hshort]
    rfl
  · have hreal : (deconstructMessages w msgs).realConversation = msgs.drop 3 := by
      rw [deconstruct_real, if_neg hlen]
    have hmv : movablePairsOf msgs =
        computeMovablePairs msgs (analyzeToolCallStrategy (msgs.drop 3)) := by
      unfold movablePairsOf
      rw [if_neg hlen]
    rw [hreal] at hkeep hmem
    cases hc : (movedIds (deconstructMessages w msgs)).contains t with
    | false => rfl
    | true =>
      exfalso
      have htm : t ∈ movedIds (deconstructMessages w msgs) := by simpa using hc
      unfold movedIds at htm
      rcases List.mem_append.mp htm with hp | hfo
      · rcases List.mem_filterMap.mp hp with ⟨pr, hpr, hsome⟩
        have hprm : pr ∈ movablePairsOf msgs := by
          rw [deconstruct_pairs] at hpr
          exact List.mem_of_mem_filter hpr
        rw [hmv] at hprm
        have hnk := movable_not_kept msgs _ hkeep pr hprm
        have hid : pr.1.id = t := by
          by_cases hne : pr.1.id ≠ ""
          · rw [if_pos hne] at hsome
            simpa using hsome
          · rw [if_neg hne] at hsome
            simp at hsome
        rw [hid] at hnk
        have h2 : (analyzeToolCallStrategy (msgs.drop 3)).lastToolCallIds.contains t =
            true := by simpa using hmem
        rw [h2] at hnk
        simp at hnk
      · rw [deconstruct_fileOps, hmv] at hfo
        unfold computeFileOperationToolCallIds at hfo
        rcases List.mem_filterMap.mp hfo with ⟨pr, hpr, hsome⟩
        have hnk := movable_not_kept msgs _ hkeep pr hpr
        have hid : pr.1.id = t := by
          by_cases hx : (extractFileOperationFromToolCall pr.1 pr.2).isSome = true
          · rw [if_pos hx] at hsome
            simpa using hsome
          · rw [if_neg hx] at hsome
            simp at hsome
        rw [hid] at hnk
        have h2 : (analyzeToolCallStrategy (msgs.drop 3)).lastToolCallIds.contains t =
            true := by simpa using hmem
        rw [h2] at hnk
        simp at hnk

/-! ## C3: the kept last tool cycle -/

theorem rebuild_getLast_tool (strat : Strategy) (moved : List String)
    (real : List Message) : ∀ (rest : List Message) (c t : String),
    rest.getLast? = some (.tool c t) → t ≠ "" → moved.contains t = false →
    (rebuildConversation strat moved real rest).getLast? =
      some (.tool (truncateSearchResult (ownerName real t) c) t) := by
  intro rest
  induction rest with
  | nil => intro c t h _ _; simp at h
  | cons m rest ih =>
    intro c t hlast ht hm
    rw [rebuildConversation_cons]
    cases hrest : rest with
    | nil =>
      subst hrest
      have hmt : m = .tool c t := by simpa using hlast
      subst hmt
      simp only [rebuildMessage, List.isEmpty_nil]
      rw [if_pos ⟨ht, by simpa using hm⟩]
      rfl
    | cons y rest2 =>
      have hlast2 : rest.getLast? = some (.tool c t) := by
        rw [hrest] at hlast ⊢
        rw [List.getLast?_cons_cons] at hlast
        exact hlast
      rw [← hrest]
      have htail := ih c t hlast2 ht hm
      rw [List.getLast?_append, htail]
      rfl

theorem rebuild_owner_mem (strat : Strategy) (moved : List String)
    (real : List Message) : ∀ (rest : List Message) (content : Option String)
      (calls : List ToolCall) (tc : ToolCall) (t : String),
    (Message.assistant content (.present calls)) ∈ rest → tc ∈ calls → tc.id = t →
    t ≠ "" → moved.contains t = false →
    t ∈ asstIds (rebuildConversation strat moved real rest) := by
  intro rest
  induction rest with
  | nil => intro _ _ _ _ h _ _ _ _; simp at h
  | cons m rest ih =>
    intro content calls tc t hmem htc hid ht hnm
    rw [rebuildConversation_cons, asstIds_append]
    rcases List.mem_cons.mp hmem with heq | hmem'
    · apply List.mem_append_left
      rw [← heq]
      have htck : tc ∈ calls.filter
          (fun tc => tc.id ≠ "" ∧ ¬ moved.contains tc.id = true) := by
        apply List.mem_filter.mpr
        refine ⟨htc, ?_⟩
        simp only [decide_eq_true_eq]
        exact ⟨by rw [hid]; exact ht, by rw [hid]; simpa using hnm⟩
      have hk : calls.filter
          (fun tc => tc.id ≠ "" ∧ ¬ moved.contains tc.id = true) ≠ [] := by
        intro h0
        rw [h0] at htck
        simp at htck
      simp only [rebuildMessage]
      rw [if_pos hk]
      show t ∈ asstIds [Message.assistant content (.present (calls.filter
        (fun tc => tc.id ≠ "" ∧ ¬ moved.contains tc.id = true)))]
      have : asstIds [Message.assistant content (.present (calls.filter
          (fun tc => tc.id ≠ "" ∧ ¬ moved.contains tc.id = true)))] =
          (calls.filter (fun tc => tc.id ≠ "" ∧ ¬ moved.contains tc.id = true)).map
            (fun tc => tc.id) := by
        simp [asstIds, asstIds_cons, callIdsOf, callsOf]
      rw [this]
      exact List.mem_map.mpr ⟨tc, htck, hid⟩
    · exact List.mem_append_right _ (ih content calls tc t hmem' htc hid ht hnm)

theorem mem_dropLast_of_ne {α : Type} : ∀ (l : List α) (m x : α), m ∈ l →
    l.getLast? = some x → m ≠ x → m ∈ l.dropLast := by
  intro l
  induction l with
  | nil => intro m x h; simp at h
  | cons a l ih =>
    intro m x hm hl hne
    cases hlist : l with
    | nil =>
      subst hlist
      have hax : a = x := by simpa using hl
      have ham : m = a := by simpa using hm
      exact absurd (ham.trans hax) hne
    | cons b l2 =>
      subst hlist
      rw [List.getLast?_cons_cons] at hl
      rcases List.mem_cons.mp hm with rfl | hm'
      · show m ∈ m :: (b :: l2).dropLast
        exact List.mem_cons_self _ _
      · show m ∈ a :: (b :: l2).dropLast
        exact List.mem_cons_of_mem _ (ih m x hm' hl hne)

/-- Claim C3, counterexample to the claim as stated: the input ends in a
`search_file_content` tool result whose content is encoded with a space
after the colon; the refocused output ends in a tool message with the
SAME `tool_call_id` but with its content rewritten by the truncator
(re-encoded without the space), so it does not end in that same tool
message. -/
theorem claim_C3_counterexample :
    msgsC3x.getLast? = some (.tool "\x7b\"output\": \"hi\"\x7d" "c1") ∧
    (reconfigureFinalMessages wEmpty msgsC3x).getLast? =
      some (.tool "\x7b\"output\":\"hi\"\x7d" "c1") ∧
    ("\x7b\"output\":\"hi\"\x7d" : String) ≠ "\x7b\"output\": \"hi\"\x7d" := by
  refine ⟨rfl, by decide, by decide⟩

/-- Claim C3, amended: when the input's real conversation ends in a tool
message with a non-empty id owned by some assistant message of the real
conversation, the output ends in that tool message with its content
rewritten through the search-result truncator (the identity unless the
owning call is a decodable `search_file_content` result), and the
assistant message owning the call appears at an earlier position of the
output. -/
theorem claim_C3 (w : World) (msgs : List Message) (c t : String)
    (hlast : (deconstructMessages w msgs).realConversation.getLast? =
      some (.tool c t))
    (ht : t ≠ "")
    (howner : ∃ m ∈ (deconstructMessages w msgs).realConversation,
      hasCallId t m = true) :
    (reconfigureFinalMessages w msgs).getLast? =
      some (.tool (truncateSearchResult
        (ownerName (deconstructMessages w msgs).realConversation t) c) t) ∧
    (reconfigureFinalMessages w msgs).dropLast.any (hasCallId t) = true := by
  have hstrat : analyzeToolCallStrategy (deconstructMessages w msgs).realConversation =
      strategyForToolId (deconstructMessages w msgs).realConversation t :=
    analyze_eq_strategyFor _ c t hlast
  have hkeep : (analyzeToolCallStrategy
      (deconstructMessages w msgs).realConversation).keepLastToolSequence = true := by
    rw [hstrat]
    exact strategyForToolId_keep _ t
  have hmem : t ∈ (analyzeToolCallStrategy
      (deconstructMessages w msgs).realConversation).lastToolCallIds := by
    rw [hstrat]
    exact strategyForToolId_mem _ t ht
  have hnm : (movedIds (deconstructMessages w msgs)).contains t = false :=
    kept_not_moved w msgs t hkeep hmem
  have hrebuild := rebuild_getLast_tool
    (analyzeToolCallStrategy (deconstructMessages w msgs).realConversation)
    (movedIds (deconstructMessages w msgs))
    (deconstructMessages w msgs).realConversation
    (deconstructMessages w msgs).realConversation c t hlast ht hnm
  have hlastOut : (reconfigureFinalMessages w msgs).getLast? =
      some (.tool (truncateSearchResult
        (ownerName (deconstructMessages w msgs).realConversation t) c) t) := by
    rw [reconfigure_eq]
    exact collapseGo_getLast _ none _ rfl (cons_getLast?_of_some _ _ _ hrebuild)
  refine ⟨hlastOut, ?_⟩
  obtain ⟨m, hm, hcall⟩ := howner
  have hshape : ∃ content calls, m = Message.assistant content (.present calls) ∧
      ∃ tc ∈ calls, tc.id = t := by
    cases m with
    | assistant content f =>
      cases f with
      | present calls =>
        refine ⟨content, calls, rfl, ?_⟩
        have : t ∈ calls.map (fun tc => tc.id) := by
          simpa [hasCallId, callIdsOf, callsOf] using hcall
        rcases List.mem_map.mp this with ⟨tc, htc, hid⟩
        exact ⟨tc, htc, hid⟩
      | absent => simp [hasCallId, callIdsOf, callsOf] at hcall
      | nullish => simp [hasCallId, callIdsOf, callsOf] at hcall
    | system c2 => simp [hasCallId, callIdsOf, callsOf] at hcall
    | user c2 => simp [hasCallId, callIdsOf, callsOf] at hcall
    | tool c2 t2 => simp [hasCallId, callIdsOf, callsOf] at hcall
  obtain ⟨content, calls, rfl, tc, htc, hid⟩ := hshape
  have hids : t ∈ asstIds (rebuildConversation
      (analyzeToolCallStrategy (deconstructMessages w msgs).realConversation)
      (movedIds (deconstructMessages w msgs))
      (deconstructMessages w msgs).realConversation
      (deconstructMessages w msgs).realConversation) :=
    rebuild_owner_mem _ _ _ _ content calls tc t hm htc hid ht hnm
  have hidsOut : t ∈ asstIds (reconfigureFinalMessages w msgs) := by
    rw [reconfigure_eq, collapseGo_asstIds]
    simp only [accIds, List.nil_append, asstIds_cons]
    apply List.mem_append_right
    exact hids
  obtain ⟨mo, hmo, hmo2⟩ := (asstIds_mem t _).mp hidsOut
  have hneq : mo ≠ Message.tool (truncateSearchResult
      (ownerName (deconstructMessages w msgs).realConversation t) c) t := by
    intro he
    rw [he] at hmo2
    simp [callIdsOf, callsOf] at hmo2
  have hdl : mo ∈ (reconfigureFinalMessages w msgs).dropLast :=
    mem_dropLast_of_ne _ mo _ hmo hlastOut hneq
  refine List.any_eq_true.mpr ⟨mo, hdl, ?_⟩
  simpa [hasCallId] using hmo2

/-! ## C5: paths of the virtual filesystem -/

theorem alistSet_keys {α : Type} (l : List (String × α)) (key : String) (v : α) :
    (alistSet l key v).map (fun p => p.1) =
      if l.any (fun p => p.1 == key) then l.map (fun p => p.1)
      else l.map (fun p => p.1) ++ [key] := by
  unfold alistSet
  by_cases h : l.any (fun p => p.1 == key)
  · rw [if_pos h, if_pos h, List.map_map]
    apply List.map_congr_left
    intro p _
    show (if p.1 == key then (p.1, v) else p).1 = p.1
    split_ifs <;> rfl
  · rw [if_neg h, if_neg h, List.map_append]
    rfl

theorem alistSet_mem_keys {α : Type} (l : List (String × α)) (key : String) (v : α) :
    key ∈ (alistSet l key v).map (fun p => p.1) := by
  rw [alistSet_keys]
  by_cases h : l.any (fun p => p.1 == key)
  · rw [if_pos h]
    rcases List.any_eq_true.mp h with ⟨p, hp, he⟩
    exact List.mem_map.mpr ⟨p, hp, by simpa using he⟩
  · rw [if_neg h]
    exact List.mem_append_right _ (List.mem_singleton.mpr rfl)

theorem alistSet_keys_sub {α : Type} (l : List (String × α)) (key k : String) (v : α)
    (h : k ∈ l.map (fun p => p.1)) : k ∈ (alistSet l key v).map (fun p => p.1) := by
  rw [alistSet_keys]
  split_ifs
  · exact h
  · exact List.mem_append_left _ h

theorem alistSet_keys_nodup {α : Type} (l : List (String × α)) (key : String) (v : α)
    (h : (l.map (fun p => p.1)).Nodup) :
    ((alistSet l key v).map (fun p => p.1)).Nodup := by
  rw [alistSet_keys]
  split_ifs with hany
  · exact h
  · have hk : key ∉ l.map (fun p => p.1) := by
      intro hmem
      rcases List.mem_map.mp hmem with ⟨p, hp, he⟩
      exact hany (List.any_eq_true.mpr ⟨p, hp, by simp [he]⟩)
    rw [List.nodup_append]
    refine ⟨h, List.nodup_singleton key, ?_⟩
    intro a ha hb
    rw [List.mem_singleton.mp hb] at ha
    exact hk ha

theorem vfsStep_none (w : World) (vfs : VFS) (pair : ToolCall × String)
    (h : extractFileOperationFromToolCall pair.1 pair.2 = none) :
    vfsStep w vfs pair = vfs := by
  unfold vfsStep
  rw [h]

theorem vfsStep_some (w : World) (vfs : VFS) (pair : ToolCall × String)
    (op : FileOperation)
    (h : extractFileOperationFromToolCall pair.1 pair.2 = some op) :
    vfsStep w vfs pair =
      if op.filepath.truthy then
        match op.type with
        | .read =>
          alistSet vfs (jsToStr op.filepath)
            (lineMapMerge ((alistGet vfs (jsToStr op.filepath)).getD [])
              (readFileRangeRaw w op.filepath
                (some (argOffset ((parsedArgs pair.1).getD Json.null)))
                (argLimit ((parsedArgs pair.1).getD Json.null))))
        | _ => alistSet vfs (jsToStr op.filepath) (readFileRangeRaw w op.filepath none none)
      else vfs := by
  unfold vfsStep
  rw [h]

theorem vfsStep_mem (w : World) (vfs : VFS) (pair : ToolCall × String)
    (op : FileOperation)
    (hop : extractFileOperationFromToolCall pair.1 pair.2 = some op)
    (hfp : op.filepath.truthy = true) :
    jsToStr op.filepath ∈ vfsPaths (vfsStep w vfs pair) := by
  rw [vfsStep_some w vfs pair op hop, if_pos hfp]
  obtain ⟨ty, fp, c, cid⟩ := op
  cases ty with
  | read => exact alistSet_mem_keys vfs (jsToStr fp) _
  | write => exact alistSet_mem_keys vfs (jsToStr fp) _
  | edit => exact alistSet_mem_keys vfs (jsToStr fp) _

theorem vfsStep_sub (w : World) (vfs : VFS) (pair : ToolCall × String) (p : String)
    (h : p ∈ vfsPaths vfs) : p ∈ vfsPaths (vfsStep w vfs pair) := by
  cases hop : extractFileOperationFromToolCall pair.1 pair.2 with
  | none => rw [vfsStep_none w vfs pair hop]; exact h
  | some op =>
    rw [vfsStep_some w vfs pair op hop]
    by_cases hfp : op.filepath.truthy = true
    · rw [if_pos hfp]
      obtain ⟨ty, fp, c, cid⟩ := op
      cases ty with
      | read => exact alistSet_keys_sub vfs (jsToStr fp) p _ h
      | write => exact alistSet_keys_sub vfs (jsToStr fp) p _ h
      | edit => exact alistSet_keys_sub vfs (jsToStr fp) p _ h
    · rw [if_neg hfp]; exact h

theorem vfsStep_nodup (w : World) (vfs : VFS) (pair : ToolCall × String)
    (h : (vfsPaths vfs).Nodup) : (vfsPaths (vfsStep w vfs pair)).Nodup := by
  cases hop : extractFileOperationFromToolCall pair.1 pair.2 with
  | none => rw [vfsStep_none w vfs pair hop]; exact h
  | some op =>
    rw [vfsStep_some w vfs pair op hop]
    by_cases hfp : op.filepath.truthy = true
    · rw [if_pos hfp]
      obtain ⟨ty, fp, c, cid⟩ := op
      cases ty with
      | read => exact alistSet_keys_nodup vfs (jsToStr fp) _ h
      | write => exact alistSet_keys_nodup vfs (jsToStr fp) _ h
      | edit => exact alistSet_keys_nodup vfs (jsToStr fp) _ h
    · rw [if_neg hfp]; exact h

theorem foldl_paths_sub (w : World) : ∀ (pairs : List (ToolCall × String))
    (vfs : VFS) (p : String), p ∈ vfsPaths vfs →
    p ∈ vfsPaths (pairs.foldl (vfsStep w) vfs) := by
  intro pairs
  induction pairs with
  | nil => intro vfs p h; exact h
  | cons q pairs ih =>
    intro vfs p h
    rw [List.foldl_cons]
    exact ih _ p (vfsStep_sub w vfs q p h)

theorem foldl_paths_nodup (w : World) : ∀ (pairs : List (ToolCall × String))
    (vfs : VFS), (vfsPaths vfs).Nodup →
    (vfsPaths (pairs.foldl (vfsStep w) vfs)).Nodup := by
  intro pairs
  induction pairs with
  | nil => intro vfs h; exact h
  | cons q pairs ih =>
    intro vfs h
    rw [List.foldl_cons]
    exact ih _ (vfsStep_nodup w vfs q h)

theorem buildVFS_mem (w : World) : ∀ (pairs : List (ToolCall × String))
    (vfs : VFS) (pr : ToolCall × String) (op : FileOperation), pr ∈ pairs →
    extractFileOperationFromToolCall pr.1 pr.2 = some op →
    op.filepath.truthy = true →
    jsToStr op.filepath ∈ vfsPaths (pairs.foldl (vfsStep w) vfs) := by
  intro pairs
  induction pairs with
  | nil => intro vfs pr op h; simp at h
  | cons q pairs ih =>
    intro vfs pr op hmem hop hfp
    rw [List.foldl_cons]
    rcases List.mem_cons.mp hmem with rfl | hmem2
    · exact foldl_paths_sub w pairs _ _ (vfsStep_mem w vfs pr op hop hfp)
    · exact ih _ pr op hmem2 hop hfp

/-- Claim C5, counterexample to the claim as stated: the input's only
file operation is a well-formed `read_file` of `/a.txt` whose tool cycle
is the kept last tool sequence; the classifier accepts it, yet the
virtual filesystem of the deconstruction is empty, so no `## /a.txt`
heading appears in the output system message. -/
theorem claim_C5_counterexample :
    (Message.assistant none (.present [tcReadA])) ∈ msgsC5x ∧
    (Message.tool "one" "c1") ∈ msgsC5x ∧
    extractFileOperationFromToolCall tcReadA "one" =
      some ⟨.read, .str "/a.txt", some (.str "one"), "c1"⟩ ∧
    vfsPaths (deconstructMessages wA msgsC5x).virtualFileSystem = [] :=
  ⟨by decide, by decide, rfl, rfl⟩

/-- Claim C5, amended: the guarantee holds for the MOVABLE file
operations (those not protected as the kept last tool cycle) whose raw
filepath value is truthy: the `String()` coercion of that value appears
exactly once among the path keys of the deconstruction's virtual
filesystem — the file-section headings of the Current File States
block — and the output's first message is the system message rendered
from that filesystem. -/
theorem claim_C5 (w : World) (msgs : List Message) (p : String)
    (h : ∃ pr ∈ movablePairsOf msgs, ∃ op,
      extractFileOperationFromToolCall pr.1 pr.2 = some op ∧
      op.filepath.truthy = true ∧ jsToStr op.filepath = p) :
    (vfsPaths (deconstructMessages w msgs).virtualFileSystem).count p = 1 ∧
    (reconfigureFinalMessages w msgs).head? =
      some (.system (buildContextStuffedSystemPrompt w
        (deconstructMessages w msgs).toolCallPairs
        (deconstructMessages w msgs).cannedUserContext
        (deconstructMessages w msgs).virtualFileSystem)) := by
  obtain ⟨pr, hpr, op, hop, htr, hfp⟩ := h
  constructor
  · rw [deconstruct_vfs]
    have hmem : p ∈ vfsPaths (buildVirtualFileSystem w (movablePairsOf msgs)) := by
      rw [← hfp]
      exact buildVFS_mem w (movablePairsOf msgs) [] pr op hpr hop htr
    have hnd : (vfsPaths (buildVirtualFileSystem w (movablePairsOf msgs))).Nodup :=
      foldl_paths_nodup w (movablePairsOf msgs) [] (by simp [vfsPaths])
    exact List.count_eq_one_of_mem hnd hmem
  · rw [reconfigure_eq, collapseGo_system_cons]
    rfl

/-- Claim C5, witness: the same read cycle followed by a user question
is movable, and `/a.txt` heads exactly one file section. -/
theorem claim_C5_witness :
    (vfsPaths (deconstructMessages wA msgsC5w).virtualFileSystem).count "/a.txt" = 1 ∧
    (reconfigureFinalMessages wA msgsC5w).head? =
      some (.system (buildContextStuffedSystemPrompt wA
        (deconstructMessages wA msgsC5w).toolCallPairs
        (deconstructMessages wA msgsC5w).cannedUserContext
        (deconstructMessages wA msgsC5w).virtualFileSystem)) :=
  claim_C5 wA msgsC5w "/a.txt"
    ⟨(tcReadA, "one"), by decide,
      ⟨⟨.read, .str "/a.txt", some (.str "one"), "c1"⟩, rfl, rfl, rfl⟩⟩

/-- Claim C3, witness: a conversation ending in an owned non-search tool
result; the truncator leaves its content unchanged. -/
theorem claim_C3_witness :
    (reconfigureFinalMessages wEmpty msgsC3w).getLast? =
      some (.tool (truncateSearchResult
        (ownerName (deconstructMessages wEmpty msgsC3w).realConversation "c2")
        "done") "c2") ∧
    (reconfigureFinalMessages wEmpty msgsC3w).dropLast.any (hasCallId "c2") = true :=
  claim_C3 wEmpty msgsC3w "done" "c2" (by decide) (by decide) (by decide)

end Refocus
